import Mathlib

/-!
# Verification of the sorting performance comparison repository

Shallow embedding of the core of the repository:

* `src/player.py` — the `Player` record and its validating constructor.
* `src/sorting_algorithms.py` — `STAT_MAPPING`, `numpy_sort`, `insertion_sort`,
  the heap engine (`percolate_up`, `percolate_down`, `heapify`) and `heapsort`.
* `src/timing_analysis.py` — `time_algorithm`.

Python floats are modelled as rationals (`Rat`); the per-trial wall-clock
readings of `time.perf_counter` are modelled as an oracle `clock : Nat → ℝ`
listing the successive values the clock returns.
-/

/-- The `Player` class of `src/player.py`: name, team and four per-game stats. -/
structure Player where
  name : String
  team : String
  points_per_game : Rat
  steals_per_game : Rat
  assists_per_game : Rat
  blocks_per_game : Rat
deriving DecidableEq, Repr

instance : Inhabited Player := ⟨⟨"", "", 0, 0, 0, 0⟩⟩

/-- `Player.__init__`: the four stat values are validated in source order and a
negative one fails construction with the corresponding message; otherwise the
fully initialised player is produced (construction is atomic). -/
def Player.init (name team : String)
    (points_per_game steals_per_game assists_per_game blocks_per_game : Rat) :
    Except String Player :=
  if points_per_game < 0 then .error "points_per_game cannot be negative"
  else if steals_per_game < 0 then .error "steals_per_game cannot be negative"
  else if assists_per_game < 0 then .error "assists_per_game cannot be negative"
  else if blocks_per_game < 0 then .error "blocks_per_game cannot be negative"
  else .ok ⟨name, team, points_per_game, steals_per_game, assists_per_game, blocks_per_game⟩

/-- `STAT_MAPPING` of `src/sorting_algorithms.py`: the recognised stat keys, in
dict insertion order, each paired with the attribute it selects (the Python
dict stores the attribute name and the algorithms read it with `getattr`;
here the composition is the field accessor itself). -/
def STAT_MAPPING : List (String × (Player → Rat)) :=
  [("ppg", Player.points_per_game),
   ("apg", Player.assists_per_game),
   ("bpg", Player.blocks_per_game),
   ("spg", Player.steals_per_game)]

/-- `stat in STAT_MAPPING` / `STAT_MAPPING[stat]` as one dictionary lookup. -/
def statLookup (stat : String) : Option (Player → Rat) :=
  STAT_MAPPING.lookup stat

/-- The `ValueError` message every sorting function raises for an
unrecognised stat key. -/
def invalidStatMessage (stat : String) : String :=
  "Invalid stat '" ++ stat ++ "'. Choose from: " ++
    String.intercalate ", " (STAT_MAPPING.map Prod.fst)

/-!
## numpy_sort

`np.argsort` is an external library primitive (the spec's "vectorized
indirect-sort"): it returns a permutation of the indices `0..n-1` under which
the value array is ascending. It is modelled as a deterministic indirect sort:
indices ordered by value, with ties broken by index.
-/

/-- Model of `np.argsort` on a rational array: the indices `0..n-1` sorted by
value. numpy's default kind is an unstable quicksort whose order among tied
values is unspecified; this model breaks ties by original index to stay
deterministic, and no claim relies on that tie order (statements touching
tied inputs either hold for any correct indirect sort or assume
pairwise-distinct values). -/
def argsort (vals : List Rat) : List Nat :=
  (List.range vals.length).mergeSort (fun i j =>
    decide (vals.getD i 0 < vals.getD j 0 ∨ (vals.getD i 0 = vals.getD j 0 ∧ i ≤ j)))

/-- `numpy_sort` of `src/sorting_algorithms.py`: validate the stat key, extract
the stat values, argsort them (on the negated values when descending), and
reorder the players by the resulting index permutation. -/
def numpy_sort (players : List Player) (stat : String) (descending : Bool) :
    Except String (List Player) :=
  match statLookup stat with
  | none => .error (invalidStatMessage stat)
  | some attr =>
    let stat_values := players.map attr
    let sorted_indices :=
      if descending then argsort (stat_values.map (fun v => -v)) else argsort stat_values
    .ok (sorted_indices.map (fun i => players.getD i default))

/-!
## insertion_sort

The outer `for i in range(1, n)` / inner `while j > 0` loops of the source:
element `i` is swapped backwards through the prefix until `in_order` holds.
The prefix already processed is carried in reversed form (`preRev`), and the
inner loop's recursion collects in `acc` the elements the moving element has
swapped past (they end up just after it, in their original order).
-/

/-- The source's `in_order` test: `current <= prev` when descending,
`current >= prev` when ascending. -/
def inOrderTest (descending : Bool) (current prev : Rat) : Bool :=
  if descending then decide (current ≤ prev) else decide (current ≥ prev)

/-- Inner `while j > 0` loop of `insertion_sort`: `preRev` is the (reversed)
part of the prefix still to the left of the moving element `x`, `acc` the
elements already swapped past. Returns the rearranged segment in forward
order. -/
def insInner (inOrd : Rat → Rat → Bool) (attr : Player → Rat) :
    List Player → Player → List Player → List Player
  | [], x, acc => x :: acc
  | p :: preRev, x, acc =>
    if inOrd (attr x) (attr p) then (p :: preRev).reverse ++ x :: acc
    else insInner inOrd attr preRev x (p :: acc)

/-- Outer `for` loop of `insertion_sort`: fold over the not-yet-processed
elements, keeping the processed prefix in reversed form. -/
def insLoop (inOrd : Rat → Rat → Bool) (attr : Player → Rat) :
    List Player → List Player → List Player
  | preRev, [] => preRev.reverse
  | preRev, x :: rest => insLoop inOrd attr (insInner inOrd attr preRev x []).reverse rest

/-- `insertion_sort` of `src/sorting_algorithms.py`. -/
def insertion_sort (players : List Player) (stat : String) (descending : Bool) :
    Except String (List Player) :=
  match statLookup stat with
  | none => .error (invalidStatMessage stat)
  | some attr => .ok (insLoop (inOrderTest descending) attr [] players)

/-!
## Heap engine

Heap entries are `(key, player)` pairs as in the source. Python list indexing
`heap[i]` is modelled with `List.getD` (all uses are in bounds under the
engine's preconditions), and the tuple swap
`heap[i], heap[j] = heap[j], heap[i]` reads both old values before writing.
-/

/-- A heap entry: `(extracted sort key, player)`. -/
abbrev Entry := Rat × Player

/-- `heap[i][0]`: the key stored at index `i`. -/
def entryKey (heap : List Entry) (i : Nat) : Rat :=
  (heap.getD i default).1

/-- `heap[i], heap[j] = heap[j], heap[i]`. -/
def listSwap (heap : List Entry) (i j : Nat) : List Entry :=
  (heap.set i (heap.getD j default)).set j (heap.getD i default)

/-- `percolate_up` of `src/sorting_algorithms.py`: while the element at `idx`
compares above its parent, swap with the parent and continue toward the root. -/
def percolate_up (compare : Rat → Rat → Bool) (heap : List Entry) (idx : Nat) :
    List Entry :=
  if h : 0 < idx then
    let parent := (idx - 1) / 2
    if compare (entryKey heap idx) (entryKey heap parent) then
      percolate_up compare (listSwap heap idx parent) parent
    else heap
  else heap
termination_by idx
decreasing_by omega

/-- First step of `percolate_down`'s best-candidate selection: `best` starts
at `idx` and the left child `2*idx + 1` replaces it if in range and above. -/
def bestChild1 (compare : Rat → Rat → Bool) (heap : List Entry) (idx size : Nat) :
    Nat :=
  if 2 * idx + 1 < size && compare (entryKey heap (2 * idx + 1)) (entryKey heap idx) then
    2 * idx + 1
  else idx

/-- Second step of the selection: the right child `2*idx + 2` replaces the
current best if in range and above it. -/
def bestIndex (compare : Rat → Rat → Bool) (heap : List Entry) (idx size : Nat) :
    Nat :=
  if 2 * idx + 1 + 1 < size &&
      compare (entryKey heap (2 * idx + 1 + 1))
        (entryKey heap (bestChild1 compare heap idx size)) then
    2 * idx + 1 + 1
  else bestChild1 compare heap idx size

/-- `bestChild1` either stays at `idx` or lands on the in-range left child. -/
theorem bestChild1_mem (compare : Rat → Rat → Bool) (heap : List Entry)
    (idx size : Nat) :
    bestChild1 compare heap idx size = idx ∨
      (idx < bestChild1 compare heap idx size ∧ bestChild1 compare heap idx size < size) := by
  unfold bestChild1
  split
  next h =>
    right
    have h1 := ((Bool.and_eq_true _ _).mp h).1
    have := of_decide_eq_true h1
    omega
  next => left; rfl

/-- `bestIndex` either stays at `idx` or lands on an in-range child. -/
theorem bestIndex_mem (compare : Rat → Rat → Bool) (heap : List Entry)
    (idx size : Nat) :
    bestIndex compare heap idx size = idx ∨
      (idx < bestIndex compare heap idx size ∧ bestIndex compare heap idx size < size) := by
  unfold bestIndex
  split
  next h =>
    right
    have h1 := ((Bool.and_eq_true _ _).mp h).1
    have := of_decide_eq_true h1
    omega
  next => exact bestChild1_mem compare heap idx size

/-- When `bestIndex` moves off `idx` it lands on an in-range child. -/
theorem bestIndex_lt (compare : Rat → Rat → Bool) (heap : List Entry)
    (idx size : Nat) (h : bestIndex compare heap idx size ≠ idx) :
    idx < bestIndex compare heap idx size ∧ bestIndex compare heap idx size < size :=
  (bestIndex_mem compare heap idx size).resolve_left h

/-- `percolate_down` of `src/sorting_algorithms.py`: while some in-range child
is above the current best (current element first, then left child, then right
child against the winner), swap toward that child and continue. -/
def percolate_down (compare : Rat → Rat → Bool) (heap : List Entry)
    (idx size : Nat) : List Entry :=
  let best := bestIndex compare heap idx size
  if best = idx then heap
  else percolate_down compare (listSwap heap idx best) best size
termination_by size - idx
decreasing_by
  have := bestIndex_lt compare heap idx size (by assumption)
  omega

/-- `heapify` of `src/sorting_algorithms.py`: append each item and immediately
percolate it up (insertion-style heap construction). -/
def heapify (compare : Rat → Rat → Bool) (items : List Entry) : List Entry :=
  items.foldl
    (fun heap item => percolate_up compare (heap ++ [item]) ((heap ++ [item]).length - 1))
    []

/-- Custom induction principle for `percolate_down`: the loop either stops at
`idx` or swaps toward `bestIndex` and continues there. -/
theorem percolate_down_ind (compare : Rat → Rat → Bool) (size : Nat)
    (motive : List Entry → Nat → Prop)
    (base : ∀ heap idx, bestIndex compare heap idx size = idx → motive heap idx)
    (step : ∀ heap idx, bestIndex compare heap idx size ≠ idx →
      motive (listSwap heap idx (bestIndex compare heap idx size))
        (bestIndex compare heap idx size) → motive heap idx) :
    ∀ heap idx, motive heap idx := by
  have H : ∀ n heap idx, size - idx ≤ n → motive heap idx := by
    intro n
    induction n with
    | zero =>
      intro heap idx hle
      rcases bestIndex_mem compare heap idx size with h | h
      · exact base _ _ h
      · omega
    | succ n ih =>
      intro heap idx hle
      rcases bestIndex_mem compare heap idx size with h | h
      · exact base _ _ h
      · exact step _ _ (by omega) (ih _ _ (by omega))
  exact fun heap idx => H (size - idx) heap idx le_rfl

/-- Unfolding `percolate_down` when the loop stops. -/
theorem percolate_down_stop (compare : Rat → Rat → Bool) (heap : List Entry)
    (idx size : Nat) (h : bestIndex compare heap idx size = idx) :
    percolate_down compare heap idx size = heap := by
  rw [percolate_down]
  simp [h]

/-- Unfolding `percolate_down` when the loop swaps and continues. -/
theorem percolate_down_swap (compare : Rat → Rat → Bool) (heap : List Entry)
    (idx size : Nat) (h : bestIndex compare heap idx size ≠ idx) :
    percolate_down compare heap idx size =
      percolate_down compare (listSwap heap idx (bestIndex compare heap idx size))
        (bestIndex compare heap idx size) size := by
  rw [percolate_down]
  simp [h]

/-- `percolate_down` only rearranges the list, so its length is unchanged. -/
theorem percolate_down_length (compare : Rat → Rat → Bool) (size : Nat) :
    ∀ (heap : List Entry) (idx : Nat),
      (percolate_down compare heap idx size).length = heap.length := by
  refine percolate_down_ind compare size _ ?_ ?_
  · intro heap idx h
    rw [percolate_down_stop compare heap idx size h]
  · intro heap idx h ih
    rw [percolate_down_swap compare heap idx size h, ih]
    simp [listSwap]

/-- One pass of the `heapsort` extraction loop after the root is read:
`heap[0] = heap[size - 1]; heap.pop(); size -= 1`, followed by
`percolate_down(heap, 0, size)` when the shrunk heap is nonempty. -/
def afterPop (compare : Rat → Rat → Bool) (heap : List Entry) : List Entry :=
  let heap1 := (heap.set 0 (heap.getD (heap.length - 1) default)).dropLast
  if 0 < heap1.length then percolate_down compare heap1 0 heap1.length else heap1

/-- `afterPop` shrinks the heap by exactly one. -/
theorem afterPop_length (compare : Rat → Rat → Bool) (heap : List Entry) :
    (afterPop compare heap).length = heap.length - 1 := by
  simp only [afterPop]
  split
  · rw [percolate_down_length]
    simp [List.length_set]
  · simp [List.length_set]

/-- Extraction loop of `heapsort`: take the root, move the last live element to
the root, shrink, restore the heap with `percolate_down`, and continue. -/
def extractLoop (compare : Rat → Rat → Bool) : List Entry → List Player
  | [] => []
  | root :: rest => root.2 :: extractLoop compare (afterPop compare (root :: rest))
termination_by heap => heap.length
decreasing_by
  rw [afterPop_length]
  simp

/-- The comparison predicate `heapsort` hands the heap engine:
`a > b` for descending, `a < b` for ascending. -/
def heapCompare (descending : Bool) (a b : Rat) : Bool :=
  if descending then decide (a > b) else decide (a < b)

/-- `heapsort` of `src/sorting_algorithms.py`: validate the stat key, pair each
player with its key, heapify, then repeatedly extract the root. -/
def heapsort (players : List Player) (stat : String) (descending : Bool) :
    Except String (List Player) :=
  match statLookup stat with
  | none => .error (invalidStatMessage stat)
  | some attr =>
    let items := players.map (fun p => (attr p, p))
    .ok (extractLoop (heapCompare descending) (heapify (heapCompare descending) items))

/-!
## Timing harness (`src/timing_analysis.py`)

The clock is an oracle giving the successive values returned by
`time.perf_counter`; trial `i` reads the clock twice, so its duration is
`(clock (2*i+1) - clock (2*i)) * 1000` milliseconds.
-/

/-- `statistics.mean`: the arithmetic mean. -/
noncomputable def statistics_mean (xs : List ℝ) : ℝ :=
  xs.sum / xs.length

/-- `statistics.stdev`: the sample standard deviation, with the `n - 1`
denominator. -/
noncomputable def statistics_stdev (xs : List ℝ) : ℝ :=
  Real.sqrt ((xs.map (fun x => (x - statistics_mean xs) ^ 2)).sum / (xs.length - 1))

/-- The `timings` list accumulated by `time_algorithm`'s trial loop. -/
noncomputable def trialTimings (clock : Nat → ℝ) (repeats : Nat) : List ℝ :=
  (List.range repeats).map (fun i => (clock (2 * i + 1) - clock (2 * i)) * 1000)

/-- `time_algorithm`: run the trials, then return the mean of the timings and
their sample standard deviation (`0` when there are not at least two). -/
noncomputable def time_algorithm (clock : Nat → ℝ) (repeats : Nat) : ℝ × ℝ :=
  let timings := trialTimings clock repeats
  (statistics_mean timings, if 1 < timings.length then statistics_stdev timings else 0)

/-!
## Specification-side definitions

Predicates used to state the claims, a fuel-bounded copy of the
`percolate_down` loop for its termination bound, the spec's own wording of
`percolate_down`, and an entry-level twin of the extraction loop used in
proofs.
-/

/-- A strict ordering predicate on keys: irreflexive, transitive and
trichotomous (the two predicates the engine is instantiated with, `a > b` and
`a < b` on numbers, are of this shape). -/
def StrictOrdering (compare : Rat → Rat → Bool) : Prop :=
  (∀ a, compare a a = false) ∧
  (∀ a b c, compare a b = true → compare b c = true → compare a c = true) ∧
  (∀ a b, compare a b = true ∨ compare b a = true ∨ a = b)

/-- The heap-order invariant on the first `size` entries: no element compares
above its parent `(i - 1) / 2`. -/
def IsHeap (compare : Rat → Rat → Bool) (heap : List Entry) (size : Nat) : Prop :=
  ∀ i, 0 < i → i < size → compare (entryKey heap i) (entryKey heap ((i - 1) / 2)) = false

/-- The output ordering of claim C2: every adjacent pair `(x, y)` satisfies
`value x ≥ value y` when descending and `value x ≤ value y` when ascending. -/
def adjacentOrdered (attr : Player → Rat) (descending : Bool) (l : List Player) : Prop :=
  l.Chain' (fun x y => if descending then attr y ≤ attr x else attr x ≤ attr y)

/-- Fuel-bounded copy of the `percolate_down` loop (claim C10): each pass of
the `while True` body consumes one unit of fuel and the loop body is
otherwise identical. -/
def pdFuel (compare : Rat → Rat → Bool) :
    Nat → List Entry → Nat → Nat → List Entry
  | 0, heap, _, _ => heap
  | fuel + 1, heap, idx, size =>
    if bestIndex compare heap idx size = idx then heap
    else pdFuel compare fuel (listSwap heap idx (bestIndex compare heap idx size))
      (bestIndex compare heap idx size) size

/-- Claim C8's candidate best among the children, following the spec's words:
the in-range child chosen left before right on ties. -/
def specBestChild (compare : Rat → Rat → Bool) (heap : List Entry)
    (idx size : Nat) : Option Nat :=
  if 2 * idx + 2 < size then
    some (if compare (entryKey heap (2 * idx + 2)) (entryKey heap (2 * idx + 1)) then
      2 * idx + 2 else 2 * idx + 1)
  else if 2 * idx + 1 < size then some (2 * idx + 1) else none

/-- A child produced by `specBestChild` is in range and below `idx`. -/
theorem specBestChild_lt (compare : Rat → Rat → Bool) (heap : List Entry)
    (idx size c : Nat) (h : specBestChild compare heap idx size = some c) :
    idx < c ∧ c < size := by
  unfold specBestChild at h
  split at h
  next hr =>
    obtain rfl : (if compare (entryKey heap (2 * idx + 2)) (entryKey heap (2 * idx + 1)) then
        2 * idx + 2 else 2 * idx + 1) = c := by simpa using h
    split <;> omega
  next hr =>
    split at h
    next hl =>
      obtain rfl : 2 * idx + 1 = c := by simpa using h
      omega
    next => simp at h

/-- Claim C8's `percolate_down`, written exactly as the spec words it: while
the candidate best child is above the current element, swap toward it and
continue; stop at a leaf or when no child is above. -/
def spec_percolate_down (compare : Rat → Rat → Bool) (heap : List Entry)
    (idx size : Nat) : List Entry :=
  match h : specBestChild compare heap idx size with
  | none => heap
  | some c =>
    if compare (entryKey heap c) (entryKey heap idx) then
      spec_percolate_down compare (listSwap heap idx c) c size
    else heap
termination_by size - idx
decreasing_by
  have := specBestChild_lt compare heap idx size c h
  omega

/-- Entry-level twin of `extractLoop`, keeping the whole `(key, player)` root
entry; used to reason about the extraction order. -/
def extractEntries (compare : Rat → Rat → Bool) : List Entry → List Entry
  | [] => []
  | root :: rest => root :: extractEntries compare (afterPop compare (root :: rest))
termination_by heap => heap.length
decreasing_by
  rw [afterPop_length]
  simp

/-!
## Generic list lemmas
-/

/-- `getD` after an in-range `set` at the same index. -/
theorem getD_set_self {α : Type} (l : List α) (i : Nat) (a d : α) (h : i < l.length) :
    (l.set i a).getD i d = a := by
  simp [List.getD_eq_getElem?_getD, List.getElem?_set, h]

/-- `getD` after a `set` at a different index. -/
theorem getD_set_ne {α : Type} (l : List α) (i j : Nat) (a d : α) (h : i ≠ j) :
    (l.set i a).getD j d = l.getD j d := by
  simp [List.getD_eq_getElem?_getD, List.getElem?_set, h]

/-- Replacing the element at an in-range index `k` by `a` while consing the
old element in front is a permutation of consing `a`. -/
theorem getD_cons_set_perm {α : Type} (d a : α) :
    ∀ (t : List α) (k : Nat), k < t.length → (t.getD k d :: t.set k a).Perm (a :: t) := by
  intro t
  induction t with
  | nil => intro k hk; simp at hk
  | cons b t' ih =>
    intro k hk
    cases k with
    | zero => simpa using List.Perm.swap a b t'
    | succ m =>
      simp only [List.getD_cons_succ, List.set_cons_succ]
      exact (List.Perm.swap b (t'.getD m d) (t'.set m a)).trans
        (((ih m (by simpa using hk)).cons b).trans (List.Perm.swap a b t'))

/-- Swapping two in-range positions is a permutation. -/
theorem set_set_swap_perm {α : Type} (d : α) :
    ∀ (l : List α) (i j : Nat), i < l.length → j < l.length →
      ((l.set i (l.getD j d)).set j (l.getD i d)).Perm l := by
  intro l
  induction l with
  | nil => intro i j hi _; simp at hi
  | cons a t ih =>
    intro i j hi hj
    cases i with
    | zero =>
      cases j with
      | zero => simp
      | succ n =>
        simp only [List.getD_cons_zero, List.getD_cons_succ, List.set_cons_zero,
          List.set_cons_succ]
        exact getD_cons_set_perm d a t n (by simpa using hj)
    | succ m =>
      cases j with
      | zero =>
        simp only [List.getD_cons_zero, List.getD_cons_succ, List.set_cons_zero,
          List.set_cons_succ]
        exact getD_cons_set_perm d a t m (by simpa using hi)
      | succ n =>
        simp only [List.getD_cons_succ, List.set_cons_succ]
        exact (ih m n (by simpa using hi) (by simpa using hj)).cons a

/-- `listSwap` of two in-range indices permutes the heap. -/
theorem listSwap_perm (heap : List Entry) (i j : Nat)
    (hi : i < heap.length) (hj : j < heap.length) :
    (listSwap heap i j).Perm heap :=
  set_set_swap_perm default heap i j hi hj

/-- The key read after a swap of in-range indices. -/
theorem entryKey_swap (heap : List Entry) (i j t : Nat)
    (hi : i < heap.length) (hj : j < heap.length) :
    entryKey (listSwap heap i j) t =
      if t = j then entryKey heap i
      else if t = i then entryKey heap j
      else entryKey heap t := by
  unfold listSwap entryKey
  rcases eq_or_ne t j with rfl | htj
  · rw [getD_set_self]
    · simp
    · simpa using hj
  · rw [getD_set_ne _ _ _ _ _ (Ne.symm htj)]
    rcases eq_or_ne t i with rfl | hti
    · rw [getD_set_self _ _ _ _ hi]
      simp [htj]
    · rw [getD_set_ne _ _ _ _ _ (Ne.symm hti)]
      simp [htj, hti]

/-- Reading every index of a list back with `getD` reproduces the list. -/
theorem map_getD_range {α : Type} (d : α) :
    ∀ (l : List α), (List.range l.length).map (fun i => l.getD i d) = l := by
  intro l
  induction l with
  | nil => rfl
  | cons a t ih =>
    rw [List.length_cons, List.range_succ_eq_map]
    simp only [List.map_cons, List.getD_cons_zero, List.map_map]
    have hcomp : ((fun i => (a :: t).getD i d) ∘ Nat.succ) = fun i => t.getD i d := by
      funext i
      simp [Function.comp]
    rw [hcomp, ih]

/-- A sorted list is determined by its multiset when the order is
antisymmetric on its members. -/
theorem sorted_perm_eq {α : Type} {R : α → α → Prop} :
    ∀ {l₁ l₂ : List α}, l₁.Perm l₂ → l₁.Pairwise R → l₂.Pairwise R →
      (∀ x ∈ l₁, ∀ y ∈ l₁, R x y → R y x → x = y) → l₁ = l₂ := by
  intro l₁
  induction l₁ with
  | nil => intro l₂ hp _ _ _; simpa using hp.nil_eq
  | cons a t₁ ih =>
    intro l₂ hp hs₁ hs₂ hanti
    cases l₂ with
    | nil => exact absurd hp.symm (by simp)
    | cons b t₂ =>
      by_cases hab : a = b
      · subst hab
        have ht : t₁.Perm t₂ := hp.cons_inv
        have : t₁ = t₂ := by
          refine ih ht (List.Pairwise.of_cons hs₁) (List.Pairwise.of_cons hs₂) ?_
          intro x hx y hy
          exact hanti x (List.mem_cons_of_mem a hx) y (List.mem_cons_of_mem a hy)
        rw [this]
      · exfalso
        have hamem : a ∈ b :: t₂ := hp.subset (List.mem_cons_self a t₁)
        have hat₂ : a ∈ t₂ := by
          rcases List.mem_cons.mp hamem with h | h
          · exact absurd h hab
          · exact h
        have hbmem : b ∈ a :: t₁ := hp.symm.subset (List.mem_cons_self b t₂)
        have hbt₁ : b ∈ t₁ := by
          rcases List.mem_cons.mp hbmem with h | h
          · exact absurd h.symm hab
          · exact h
        have hRab : R a b := (List.pairwise_cons.mp hs₁).1 b hbt₁
        have hRba : R b a := (List.pairwise_cons.mp hs₂).1 a hat₂
        exact hab (hanti a (List.mem_cons_self a t₁) b hbmem hRab hRba)

/-!
## Insertion sort lemmas

Generic in the boolean `in_order` test (a total preorder on keys) and the
attribute; instantiated with `inOrderTest descending`.
-/

/-- The output ordering maintained by `insertion_sort`: `x` may stand before
`y` iff `y` is `in_order` with respect to `x`. -/
def insRel (inOrd : Rat → Rat → Bool) (attr : Player → Rat) (x y : Player) : Prop :=
  inOrd (attr y) (attr x) = true

/-- The inner loop only rearranges: its result is a permutation of the prefix
plus the moving element plus the already-passed elements. -/
theorem insInner_perm (inOrd : Rat → Rat → Bool) (attr : Player → Rat) :
    ∀ (preRev : List Player) (x : Player) (acc : List Player),
      (insInner inOrd attr preRev x acc).Perm (preRev.reverse ++ x :: acc) := by
  intro preRev
  induction preRev with
  | nil => intro x acc; simp [insInner]
  | cons p pre ih =>
    intro x acc
    rw [insInner]
    split
    · exact List.Perm.refl _
    · refine (ih x (p :: acc)).trans ?_
      have hswap : (x :: p :: acc).Perm (p :: x :: acc) := List.Perm.swap p x acc
      have := List.Perm.append_left pre.reverse hswap
      refine this.trans ?_
      simp

/-- The outer loop permutes the prefix followed by the remaining elements. -/
theorem insLoop_perm (inOrd : Rat → Rat → Bool) (attr : Player → Rat) :
    ∀ (l preRev : List Player), (insLoop inOrd attr preRev l).Perm (preRev.reverse ++ l) := by
  intro l
  induction l with
  | nil => intro preRev; simp [insLoop]
  | cons x rest ih =>
    intro preRev
    rw [insLoop]
    refine (ih _).trans ?_
    rw [List.reverse_reverse]
    refine (List.Perm.append_right rest (insInner_perm inOrd attr preRev x [])).trans ?_
    simp

/-- `insertion_sort` with a recognised stat key permutes its input. -/
theorem insertion_sort_perm (players : List Player) (stat : String) (descending : Bool)
    (attr : Player → Rat) (h : statLookup stat = some attr) :
    ∃ out, insertion_sort players stat descending = .ok out ∧ out.Perm players := by
  refine ⟨insLoop (inOrderTest descending) attr [] players, ?_, ?_⟩
  · unfold insertion_sort
    rw [h]
  · simpa using insLoop_perm (inOrderTest descending) attr players []

/-- The inner loop inserts `x` into the sorted prefix, keeping the whole
segment pairwise ordered. -/
theorem insInner_sorted (inOrd : Rat → Rat → Bool) (attr : Player → Rat)
    (htot : ∀ a b, inOrd a b = true ∨ inOrd b a = true)
    (htrans : ∀ a b c, inOrd a b = true → inOrd b c = true → inOrd a c = true) :
    ∀ (preRev : List Player) (x : Player) (acc : List Player),
      List.Pairwise (insRel inOrd attr) preRev.reverse →
      List.Pairwise (insRel inOrd attr) acc →
      (∀ a ∈ acc, insRel inOrd attr x a) →
      (∀ p ∈ preRev, ∀ a ∈ acc, insRel inOrd attr p a) →
      List.Pairwise (insRel inOrd attr) (insInner inOrd attr preRev x acc) := by
  intro preRev
  induction preRev with
  | nil =>
    intro x acc _ hacc hxacc _
    rw [insInner]
    exact List.pairwise_cons.mpr ⟨hxacc, hacc⟩
  | cons p pre ih =>
    intro x acc hpre hacc hxacc hpreacc
    rw [insInner]
    split
    next hin =>
      rw [List.pairwise_append]
      have hrest : List.Pairwise (insRel inOrd attr) (x :: acc) :=
        List.pairwise_cons.mpr ⟨hxacc, hacc⟩
      refine ⟨hpre, hrest, ?_⟩
      intro u hu v hv
      have hu2 : u ∈ p :: pre := List.mem_reverse.mp hu
      rcases List.mem_cons.mp hv with rfl | hva
      · -- v = x
        rcases List.mem_cons.mp hu2 with rfl | hupre
        · exact hin
        · -- u ∈ pre; the prefix is sorted so u is above p, and x is in order after p
          have hup : insRel inOrd attr u p := by
            have := (List.pairwise_append.mp (by
              simpa using hpre : List.Pairwise (insRel inOrd attr) (pre.reverse ++ [p]))).2.2
            exact this u (List.mem_reverse.mpr hupre) p (List.mem_singleton.mpr rfl)
          exact htrans _ _ _ hin hup
      · exact hpreacc u hu2 v hva
    next hout =>
      have hout2 : inOrd (attr x) (attr p) = false := by
        simpa using hout
      have hpx : insRel inOrd attr x p := by
        rcases htot (attr p) (attr x) with h | h
        · exact h
        · rw [h] at hout2; cases hout2
      have hsplit : List.Pairwise (insRel inOrd attr) (pre.reverse ++ [p]) := by
        simpa using hpre
      have hcross := (List.pairwise_append.mp hsplit).2.2
      refine ih x (p :: acc) (List.Pairwise.sublist (List.sublist_append_left _ _) hsplit) ?_ ?_ ?_
      · refine List.pairwise_cons.mpr ⟨?_, hacc⟩
        intro a ha
        exact hpreacc p (List.mem_cons_self p pre) a ha
      · intro a ha
        rcases List.mem_cons.mp ha with rfl | ha2
        · exact hpx
        · exact hxacc a ha2
      · intro q hq a ha
        rcases List.mem_cons.mp ha with rfl | ha2
        · exact hcross q (List.mem_reverse.mpr hq) a (List.mem_singleton.mpr rfl)
        · exact hpreacc q (List.mem_cons_of_mem p hq) a ha2

/-- The outer loop keeps the processed prefix pairwise ordered. -/
theorem insLoop_sorted (inOrd : Rat → Rat → Bool) (attr : Player → Rat)
    (htot : ∀ a b, inOrd a b = true ∨ inOrd b a = true)
    (htrans : ∀ a b c, inOrd a b = true → inOrd b c = true → inOrd a c = true) :
    ∀ (l preRev : List Player), List.Pairwise (insRel inOrd attr) preRev.reverse →
      List.Pairwise (insRel inOrd attr) (insLoop inOrd attr preRev l) := by
  intro l
  induction l with
  | nil => intro preRev hpre; rw [insLoop]; exact hpre
  | cons x rest ih =>
    intro preRev hpre
    rw [insLoop]
    refine ih _ ?_
    rw [List.reverse_reverse]
    exact insInner_sorted inOrd attr htot htrans preRev x [] hpre (by simp) (by simp) (by simp)

/-- The inner loop never moves the inserted element past an equal key (the
`in_order` test succeeds on ties), so filtering on any one key value sees the
element inserted right after the prefix. -/
theorem insInner_filter (inOrd : Rat → Rat → Bool) (attr : Player → Rat)
    (hrefl : ∀ a, inOrd a a = true) (v : Rat) :
    ∀ (preRev : List Player) (x : Player) (acc : List Player),
      (insInner inOrd attr preRev x acc).filter (fun p => decide (attr p = v)) =
        preRev.reverse.filter (fun p => decide (attr p = v)) ++
          (x :: acc).filter (fun p => decide (attr p = v)) := by
  intro preRev
  induction preRev with
  | nil => intro x acc; rw [insInner]; simp
  | cons p pre ih =>
    intro x acc
    rw [insInner]
    split
    next hin => rw [List.filter_append]
    next hout =>
      have hout2 : inOrd (attr x) (attr p) = false := by simpa using hout
      have hne : attr p ≠ attr x := by
        intro he
        rw [he, hrefl] at hout2
        cases hout2
      rw [ih x (p :: acc), List.reverse_cons, List.filter_append, List.append_assoc]
      congr 1
      by_cases hx : attr x = v
      · have hp : ¬ attr p = v := fun hpv => hne (hpv.trans hx.symm)
        simp [List.filter_cons, hx, hp]
      · simp only [List.filter_cons, hx, decide_eq_true_eq, if_false]
        split <;> simp

/-- The outer loop preserves the per-key-value subsequences: filtering on any
one key value commutes with sorting. -/
theorem insLoop_filter (inOrd : Rat → Rat → Bool) (attr : Player → Rat)
    (hrefl : ∀ a, inOrd a a = true) (v : Rat) :
    ∀ (l preRev : List Player),
      (insLoop inOrd attr preRev l).filter (fun p => decide (attr p = v)) =
        preRev.reverse.filter (fun p => decide (attr p = v)) ++
          l.filter (fun p => decide (attr p = v)) := by
  intro l
  induction l with
  | nil => intro preRev; rw [insLoop]; simp
  | cons x rest ih =>
    intro preRev
    rw [insLoop, ih, List.reverse_reverse, insInner_filter inOrd attr hrefl v,
      List.append_assoc]
    congr 1
    simp [List.filter_cons]
    split <;> simp

/-- The inner loop stops immediately when the new element is already in order
with respect to the last element of the prefix. -/
theorem insInner_of_inOrder (inOrd : Rat → Rat → Bool) (attr : Player → Rat)
    (p : Player) (preRev : List Player) (x : Player)
    (hin : inOrd (attr x) (attr p) = true) :
    insInner inOrd attr (p :: preRev) x [] = (p :: preRev).reverse ++ [x] := by
  rw [insInner]
  simp [hin]

/-- On an input whose adjacent pairs are already in order, the outer loop
reproduces the list unchanged. -/
theorem insLoop_of_sorted (inOrd : Rat → Rat → Bool) (attr : Player → Rat) :
    ∀ (l preRev : List Player),
      List.Chain' (fun a b => inOrd (attr b) (attr a) = true) (preRev.reverse ++ l) →
      insLoop inOrd attr preRev l = preRev.reverse ++ l := by
  intro l
  induction l with
  | nil => intro preRev _; rw [insLoop]; simp
  | cons x rest ih =>
    intro preRev hchain
    rw [insLoop]
    cases preRev with
    | nil =>
      have : insInner inOrd attr [] x [] = [x] := by rw [insInner]
      rw [this]
      exact ih [x] (by simpa using hchain)
    | cons p pp =>
      have hadj : inOrd (attr x) (attr p) = true := by
        have hsplit := List.chain'_append.mp (by
          simpa using hchain :
            List.Chain' (fun a b => inOrd (attr b) (attr a) = true)
              ((pp.reverse ++ [p]) ++ x :: rest))
        have := hsplit.2.2 p (by rw [List.getLast?_concat]; rfl) x rfl
        exact this
      rw [insInner_of_inOrder inOrd attr p pp x hadj]
      have hres := ih ((p :: pp).reverse ++ [x]).reverse (by
        rw [List.reverse_reverse, List.append_assoc]
        simpa using hchain)
      rw [hres, List.reverse_reverse, List.append_assoc]
      rfl

/-!
## numpy_sort lemmas
-/

/-- In-range `getD` through a `map`. -/
theorem getD_map_lt {α β : Type} (f : α → β) (l : List α) (i : Nat) (d : β) (d2 : α)
    (h : i < l.length) : (l.map f).getD i d = f (l.getD i d2) := by
  have h2 : i < (l.map f).length := by simpa using h
  rw [List.getD_eq_getElem?_getD, List.getElem?_eq_getElem h2,
    List.getD_eq_getElem?_getD, List.getElem?_eq_getElem h]
  simp

/-- The argsort comparator (value, then index) is transitive. -/
theorem argsortRel_trans (vals : List Rat) (a b c : Nat)
    (h1 : vals.getD a 0 < vals.getD b 0 ∨ (vals.getD a 0 = vals.getD b 0 ∧ a ≤ b))
    (h2 : vals.getD b 0 < vals.getD c 0 ∨ (vals.getD b 0 = vals.getD c 0 ∧ b ≤ c)) :
    vals.getD a 0 < vals.getD c 0 ∨ (vals.getD a 0 = vals.getD c 0 ∧ a ≤ c) := by
  rcases h1 with h1 | h1 <;> rcases h2 with h2 | h2
  · exact Or.inl (h1.trans h2)
  · exact Or.inl (h2.1 ▸ h1)
  · exact Or.inl (by rw [h1.1]; exact h2)
  · exact Or.inr ⟨h1.1.trans h2.1, h1.2.trans h2.2⟩

/-- The argsort comparator is total. -/
theorem argsortRel_total (vals : List Rat) (a b : Nat) :
    (vals.getD a 0 < vals.getD b 0 ∨ (vals.getD a 0 = vals.getD b 0 ∧ a ≤ b)) ∨
      (vals.getD b 0 < vals.getD a 0 ∨ (vals.getD b 0 = vals.getD a 0 ∧ b ≤ a)) := by
  rcases lt_trichotomy (vals.getD a 0) (vals.getD b 0) with h | h | h
  · exact Or.inl (Or.inl h)
  · rcases Nat.le_total a b with hi | hi
    · exact Or.inl (Or.inr ⟨h, hi⟩)
    · exact Or.inr (Or.inr ⟨h.symm, hi⟩)
  · exact Or.inr (Or.inl h)

/-- The index list returned by the argsort model is sorted by
(value, then index). -/
theorem argsort_sorted (vals : List Rat) :
    List.Pairwise (fun i j =>
      vals.getD i 0 < vals.getD j 0 ∨ (vals.getD i 0 = vals.getD j 0 ∧ i ≤ j))
      (argsort vals) := by
  have h := @List.sorted_mergeSort Nat
    (fun i j => decide (vals.getD i 0 < vals.getD j 0 ∨ (vals.getD i 0 = vals.getD j 0 ∧ i ≤ j)))
    (fun a b c h1 h2 => decide_eq_true
      (argsortRel_trans vals a b c (of_decide_eq_true h1) (of_decide_eq_true h2)))
    (fun a b => by
      show (decide (vals.getD a 0 < vals.getD b 0 ∨ vals.getD a 0 = vals.getD b 0 ∧ a ≤ b) ||
        decide (vals.getD b 0 < vals.getD a 0 ∨ vals.getD b 0 = vals.getD a 0 ∧ b ≤ a)) = true
      rcases argsortRel_total vals a b with h | h
      · rw [decide_eq_true h, Bool.true_or]
      · rw [decide_eq_true h, Bool.or_true])
    (List.range vals.length)
  exact h.imp (fun hab => of_decide_eq_true hab)

/-- The argsort model permutes the index range. -/
theorem argsort_perm (vals : List Rat) :
    (argsort vals).Perm (List.range vals.length) := by
  unfold argsort
  exact List.mergeSort_perm _ _

/-- Reordering players by the argsort of an equally long value list permutes
the players. -/
theorem argsort_map_perm (players : List Player) (vals : List Rat)
    (hlen : vals.length = players.length) :
    ((argsort vals).map (fun i => players.getD i default)).Perm players := by
  have hmap := (argsort_perm vals).map (fun i => players.getD i default)
  rw [hlen] at hmap
  have heq := map_getD_range (default : Player) players
  rw [heq] at hmap
  exact hmap

/-- Reordering players by the argsort of an equally long value list yields a
list pairwise ordered by any relation compatible with the values. -/
theorem argsort_map_sorted (players : List Player) (vals : List Rat)
    (hlen : vals.length = players.length) (R : Player → Player → Prop)
    (hR : ∀ i j : Nat, i < players.length → j < players.length →
      vals.getD i 0 ≤ vals.getD j 0 →
      R (players.getD i default) (players.getD j default)) :
    List.Pairwise R ((argsort vals).map (fun i => players.getD i default)) := by
  have hs := argsort_sorted vals
  have hmem : ∀ i ∈ argsort vals, i < players.length := by
    intro i hi
    have : i ∈ List.range vals.length := (argsort_perm vals).subset hi
    rw [List.mem_range] at this
    omega
  rw [List.pairwise_map]
  refine hs.imp_of_mem ?_
  intro a b ha hb hab
  refine hR a b (hmem a ha) (hmem b hb) ?_
  rcases hab with h | h
  · exact le_of_lt h
  · exact le_of_eq h.1

/-- `numpy_sort` with a recognised stat key permutes its input. -/
theorem numpy_sort_perm (players : List Player) (stat : String) (descending : Bool)
    (attr : Player → Rat) (h : statLookup stat = some attr) :
    ∃ out, numpy_sort players stat descending = .ok out ∧ out.Perm players := by
  unfold numpy_sort
  rw [h]
  refine ⟨_, rfl, ?_⟩
  cases descending
  · simp only [Bool.false_eq_true, if_false]
    exact argsort_map_perm players _ (by simp)
  · simp only [if_true]
    exact argsort_map_perm players _ (by simp)

/-- `numpy_sort` with a recognised stat key returns an adjacent-ordered list. -/
theorem numpy_sort_sorted (players : List Player) (stat : String) (descending : Bool)
    (attr : Player → Rat) (h : statLookup stat = some attr) :
    ∃ out, numpy_sort players stat descending = .ok out ∧
      adjacentOrdered attr descending out := by
  unfold numpy_sort
  rw [h]
  refine ⟨_, rfl, ?_⟩
  unfold adjacentOrdered
  cases descending
  · simp only [Bool.false_eq_true, if_false]
    refine List.Pairwise.chain' ?_
    refine argsort_map_sorted players (players.map attr) (by simp) _ ?_
    intro i j hi hj hle
    rw [getD_map_lt attr players i 0 default hi, getD_map_lt attr players j 0 default hj] at hle
    exact hle
  · simp only [if_true]
    refine List.Pairwise.chain' ?_
    refine argsort_map_sorted players ((players.map attr).map (fun v => -v)) (by simp) _ ?_
    intro i j hi hj hle
    rw [getD_map_lt (fun v => -v) (players.map attr) i 0 0 (by simpa using hi),
      getD_map_lt (fun v => -v) (players.map attr) j 0 0 (by simpa using hj),
      getD_map_lt attr players i 0 default hi, getD_map_lt attr players j 0 default hj] at hle
    simpa using hle

/-!
## Heap engine lemmas
-/

/-- A strict ordering is asymmetric. -/
theorem StrictOrdering.asymm {compare : Rat → Rat → Bool} (h : StrictOrdering compare)
    {a b : Rat} (hab : compare a b = true) : compare b a = false := by
  cases hba : compare b a
  · rfl
  · have := h.2.1 a b a hab hba
    rw [h.1 a] at this
    cases this

/-- A strict ordering is negatively transitive. -/
theorem StrictOrdering.negtrans {compare : Rat → Rat → Bool} (h : StrictOrdering compare)
    {a b c : Rat} (hab : compare a b = false) (hbc : compare b c = false) :
    compare a c = false := by
  cases hac : compare a c
  · rfl
  · exfalso
    rcases h.2.2 b a with hba | hba | hba
    · have := h.2.1 b a c hba hac
      rw [this] at hbc
      cases hbc
    · rw [hba] at hab
      cases hab
    · rw [hba] at hbc
      rw [hbc] at hac
      cases hac

/-- Ascending `heapsort` compares with `a < b`. -/
theorem heapCompare_false (a b : Rat) : heapCompare false a b = decide (a < b) := rfl

/-- Descending `heapsort` compares with `a > b`. -/
theorem heapCompare_true (a b : Rat) : heapCompare true a b = decide (b < a) := rfl

/-- Both comparison predicates used by `heapsort` are strict orderings. -/
theorem heapCompare_strict (descending : Bool) : StrictOrdering (heapCompare descending) := by
  cases descending
  · refine ⟨fun a => ?_, fun a b c h1 h2 => ?_, fun a b => ?_⟩
    · rw [heapCompare_false]
      simp
    · rw [heapCompare_false] at h1 h2 ⊢
      rw [decide_eq_true_eq] at h1 h2
      exact decide_eq_true (h1.trans h2)
    · rw [heapCompare_false, heapCompare_false]
      rcases lt_trichotomy a b with h | h | h
      · exact Or.inl (decide_eq_true h)
      · exact Or.inr (Or.inr h)
      · exact Or.inr (Or.inl (decide_eq_true h))
  · refine ⟨fun a => ?_, fun a b c h1 h2 => ?_, fun a b => ?_⟩
    · rw [heapCompare_true]
      simp
    · rw [heapCompare_true] at h1 h2 ⊢
      rw [decide_eq_true_eq] at h1 h2
      exact decide_eq_true (h2.trans h1)
    · rw [heapCompare_true, heapCompare_true]
      rcases lt_trichotomy a b with h | h | h
      · exact Or.inr (Or.inl (decide_eq_true h))
      · exact Or.inr (Or.inr h)
      · exact Or.inl (decide_eq_true h)

/-- `listSwap` preserves the length. -/
theorem listSwap_length (heap : List Entry) (i j : Nat) :
    (listSwap heap i j).length = heap.length := by
  simp [listSwap]

/-- Unfolding `percolate_up` when the element is above its parent. -/
theorem percolate_up_step (compare : Rat → Rat → Bool) (heap : List Entry) (idx : Nat)
    (h0 : 0 < idx)
    (hc : compare (entryKey heap idx) (entryKey heap ((idx - 1) / 2)) = true) :
    percolate_up compare heap idx =
      percolate_up compare (listSwap heap idx ((idx - 1) / 2)) ((idx - 1) / 2) := by
  rw [percolate_up]
  simp [h0, hc]

/-- Unfolding `percolate_up` when the loop stops. -/
theorem percolate_up_stop (compare : Rat → Rat → Bool) (heap : List Entry) (idx : Nat)
    (h : idx = 0 ∨ compare (entryKey heap idx) (entryKey heap ((idx - 1) / 2)) = false) :
    percolate_up compare heap idx = heap := by
  rw [percolate_up]
  rcases h with h | h
  · simp [h]
  · simp [h]

/-- `percolate_up` preserves the length. -/
theorem percolate_up_length (compare : Rat → Rat → Bool) :
    ∀ (idx : Nat) (heap : List Entry), (percolate_up compare heap idx).length = heap.length := by
  intro idx
  induction idx using Nat.strong_induction_on with
  | _ idx ih =>
    intro heap
    rw [percolate_up]
    by_cases h0 : 0 < idx
    · simp only [dif_pos h0]
      split
      · rw [ih ((idx - 1) / 2) (by omega), listSwap_length]
      · rfl
    · simp [h0]

/-- `percolate_up` from an in-range index permutes the heap. -/
theorem percolate_up_perm (compare : Rat → Rat → Bool) :
    ∀ (idx : Nat) (heap : List Entry), idx < heap.length →
      (percolate_up compare heap idx).Perm heap := by
  intro idx
  induction idx using Nat.strong_induction_on with
  | _ idx ih =>
    intro heap hlen
    rw [percolate_up]
    by_cases h0 : 0 < idx
    · simp only [dif_pos h0]
      split
      · refine (ih ((idx - 1) / 2) (by omega) _ ?_).trans ?_
        · rw [listSwap_length]
          omega
        · exact listSwap_perm heap idx ((idx - 1) / 2) hlen (by omega)
      · exact List.Perm.refl _
    · simp [h0]

/-- `percolate_down` permutes the heap when `size` is within bounds. -/
theorem percolate_down_perm (compare : Rat → Rat → Bool) (size : Nat) :
    ∀ (heap : List Entry) (idx : Nat), size ≤ heap.length →
      (percolate_down compare heap idx size).Perm heap := by
  refine percolate_down_ind compare size
    (fun heap idx => size ≤ heap.length → (percolate_down compare heap idx size).Perm heap)
    ?_ ?_
  · intro heap idx h _
    rw [percolate_down_stop compare heap idx size h]
  · intro heap idx h ih hlen
    have hb := bestIndex_lt compare heap idx size h
    rw [percolate_down_swap compare heap idx size h]
    refine (ih ?_).trans ?_
    · rw [listSwap_length]
      exact hlen
    · exact listSwap_perm heap idx _ (by omega) (by omega)

/-- `percolate_up` establishes the heap invariant: if every edge except the
one from `idx` to its parent holds, and no child of `idx` is above `idx`'s
parent, then the whole prefix is a heap afterwards. -/
theorem percolate_up_heap (compare : Rat → Rat → Bool) (hso : StrictOrdering compare) :
    ∀ (idx : Nat) (heap : List Entry), idx < heap.length →
      (∀ i, 0 < i → i < heap.length → i ≠ idx →
        compare (entryKey heap i) (entryKey heap ((i - 1) / 2)) = false) →
      (0 < idx → ∀ i, i < heap.length → (i - 1) / 2 = idx →
        compare (entryKey heap i) (entryKey heap ((idx - 1) / 2)) = false) →
      IsHeap compare (percolate_up compare heap idx) heap.length := by
  intro idx
  induction idx using Nat.strong_induction_on with
  | _ idx ih =>
    intro heap hlen hrest hgrand
    by_cases h0 : 0 < idx
    · by_cases hc : compare (entryKey heap idx) (entryKey heap ((idx - 1) / 2)) = true
      · rw [percolate_up_step compare heap idx h0 hc]
        have hPlt : (idx - 1) / 2 < idx := by omega
        have hPlen : (idx - 1) / 2 < heap.length := by omega
        have hkey : ∀ t, entryKey (listSwap heap idx ((idx - 1) / 2)) t =
            if t = (idx - 1) / 2 then entryKey heap idx
            else if t = idx then entryKey heap ((idx - 1) / 2)
            else entryKey heap t :=
          fun t => entryKey_swap heap idx ((idx - 1) / 2) t hlen hPlen
        rw [← listSwap_length heap idx ((idx - 1) / 2)]
        refine ih ((idx - 1) / 2) hPlt _ ?_ ?_ ?_
        · rw [listSwap_length]
          exact hPlen
        · -- every edge except the one from the parent position holds
          intro i hi0 hilen hiP
          rw [listSwap_length] at hilen
          by_cases hiidx : i = idx
          · subst hiidx
            rw [hkey i, hkey ((i - 1) / 2)]
            have hne : ¬ i = (i - 1) / 2 := by omega
            simp only [if_neg hne, if_pos rfl, if_pos rfl]
            exact hso.asymm hc
          · by_cases hchild : (i - 1) / 2 = idx
            · rw [hkey i, hkey ((i - 1) / 2)]
              have hgti : idx < i := by omega
              have hi_ne_P : ¬ i = (idx - 1) / 2 := by omega
              rw [if_neg hi_ne_P, if_neg hiidx, hchild]
              have hidx_ne_P : ¬ idx = (idx - 1) / 2 := by omega
              rw [if_neg hidx_ne_P, if_pos rfl]
              exact hgrand h0 i hilen hchild
            · by_cases hsib : (i - 1) / 2 = (idx - 1) / 2
              · rw [hkey i, hkey ((i - 1) / 2)]
                rw [if_neg hiP, if_neg hiidx, hsib, if_pos rfl]
                cases hval : compare (entryKey heap i) (entryKey heap idx)
                · rfl
                · exfalso
                  have h1 := hso.2.1 _ _ _ hval hc
                  have h2 := hrest i hi0 hilen hiidx
                  rw [hsib] at h2
                  rw [h1] at h2
                  cases h2
              · rw [hkey i, hkey ((i - 1) / 2)]
                rw [if_neg hiP, if_neg hiidx, if_neg hsib, if_neg hchild]
                exact hrest i hi0 hilen hiidx
        · -- children of the new position are not above its parent
          intro hP0 i hilen hpari
          rw [listSwap_length] at hilen
          have hgp_ne_P : ¬ ((idx - 1) / 2 - 1) / 2 = (idx - 1) / 2 := by omega
          have hgp_ne_idx : ¬ ((idx - 1) / 2 - 1) / 2 = idx := by omega
          rw [hkey i, hkey (((idx - 1) / 2 - 1) / 2)]
          rw [if_neg hgp_ne_P, if_neg hgp_ne_idx]
          by_cases hiidx : i = idx
          · rw [hiidx]
            have hi_ne_P : ¬ idx = (idx - 1) / 2 := by omega
            rw [if_neg hi_ne_P, if_pos rfl]
            exact hrest ((idx - 1) / 2) hP0 hPlen (by omega)
          · have hi_ne_P : ¬ i = (idx - 1) / 2 := by omega
            rw [if_neg hi_ne_P, if_neg hiidx]
            have h1 := hrest i (by omega) hilen hiidx
            rw [hpari] at h1
            have h2 := hrest ((idx - 1) / 2) hP0 hPlen (by omega)
            exact hso.negtrans h1 h2
      · rw [Bool.not_eq_true] at hc
        rw [percolate_up_stop compare heap idx (Or.inr hc)]
        intro i hi0 hilen
        by_cases hiidx : i = idx
        · subst hiidx
          exact hc
        · exact hrest i hi0 hilen hiidx
    · rw [percolate_up_stop compare heap idx (Or.inl (by omega))]
      intro i hi0 hilen
      exact hrest i hi0 hilen (by omega)

/-- In-range `getD` ignores an appended tail. -/
theorem getD_append_lt {α : Type} (l l2 : List α) (i : Nat) (d : α) (h : i < l.length) :
    (l ++ l2).getD i d = l.getD i d := by
  rw [List.getD_eq_getElem?_getD, List.getD_eq_getElem?_getD, List.getElem?_append,
    if_pos h]

/-- Invariant of the `heapify` fold: starting from a heap, appending each item
and percolating it up yields a heap that permutes the accumulated entries. -/
theorem heapify_go (compare : Rat → Rat → Bool) (hso : StrictOrdering compare) :
    ∀ (items heap0 : List Entry), IsHeap compare heap0 heap0.length →
      IsHeap compare
          (items.foldl (fun heap item =>
            percolate_up compare (heap ++ [item]) ((heap ++ [item]).length - 1)) heap0)
          (items.foldl (fun heap item =>
            percolate_up compare (heap ++ [item]) ((heap ++ [item]).length - 1)) heap0).length ∧
      (items.foldl (fun heap item =>
        percolate_up compare (heap ++ [item]) ((heap ++ [item]).length - 1)) heap0).Perm
        (heap0 ++ items) := by
  intro items
  induction items with
  | nil =>
    intro heap0 h0
    simp only [List.foldl_nil, List.append_nil]
    exact ⟨h0, List.Perm.refl _⟩
  | cons it rest ih =>
    intro heap0 h0
    simp only [List.foldl_cons]
    have hlen1 : (heap0 ++ [it]).length = heap0.length + 1 := by simp
    have hidx : (heap0 ++ [it]).length - 1 = heap0.length := by simp
    have hheap1 : IsHeap compare
        (percolate_up compare (heap0 ++ [it]) ((heap0 ++ [it]).length - 1))
        (heap0 ++ [it]).length := by
      rw [hidx]
      refine percolate_up_heap compare hso heap0.length (heap0 ++ [it]) (by simp) ?_ ?_
      · intro i hi0 hilen hiidx
        rw [hlen1] at hilen
        have hi : i < heap0.length := by omega
        unfold entryKey
        rw [getD_append_lt _ _ _ _ hi, getD_append_lt _ _ _ _ (by omega)]
        exact h0 i hi0 hi
      · intro hpos i hilen hpar
        rw [hlen1] at hilen
        omega
    have hlen2 : (percolate_up compare (heap0 ++ [it]) ((heap0 ++ [it]).length - 1)).length =
        (heap0 ++ [it]).length := percolate_up_length compare _ _
    have hres := ih (percolate_up compare (heap0 ++ [it]) ((heap0 ++ [it]).length - 1))
      (by rw [hlen2]; exact hheap1)
    refine ⟨hres.1, hres.2.trans ?_⟩
    have hperm1 : (percolate_up compare (heap0 ++ [it]) ((heap0 ++ [it]).length - 1)).Perm
        (heap0 ++ [it]) := by
      refine percolate_up_perm compare _ _ ?_
      rw [hlen1]
      omega
    refine (hperm1.append_right rest).trans ?_
    rw [List.append_assoc]
    exact List.Perm.refl _

/-- `heapify` builds a heap over its whole length. -/
theorem heapify_isHeap (compare : Rat → Rat → Bool) (hso : StrictOrdering compare)
    (items : List Entry) :
    IsHeap compare (heapify compare items) (heapify compare items).length := by
  unfold heapify
  exact (heapify_go compare hso items [] (fun i hi0 hilen => by simp at hilen)).1

/-- `heapify` permutes its input. -/
theorem heapify_perm (compare : Rat → Rat → Bool) (hso : StrictOrdering compare)
    (items : List Entry) : (heapify compare items).Perm items := by
  unfold heapify
  simpa using (heapify_go compare hso items [] (fun i hi0 hilen => by simp at hilen)).2

/-- When `bestIndex` stays at `idx`, no in-range child compares above `idx`. -/
theorem bestIndex_eq_idx (compare : Rat → Rat → Bool) (heap : List Entry)
    (idx size : Nat) (h : bestIndex compare heap idx size = idx) :
    (2 * idx + 1 < size →
      compare (entryKey heap (2 * idx + 1)) (entryKey heap idx) = false) ∧
    (2 * idx + 1 + 1 < size →
      compare (entryKey heap (2 * idx + 1 + 1)) (entryKey heap idx) = false) := by
  have hbc : bestChild1 compare heap idx size = idx := by
    rcases bestChild1_mem compare heap idx size with hb | hb
    · exact hb
    · exfalso
      unfold bestIndex at h
      split at h
      · omega
      · omega
  constructor
  · intro hl
    unfold bestChild1 at hbc
    split at hbc
    · omega
    next hguard =>
      cases hcl : compare (entryKey heap (2 * idx + 1)) (entryKey heap idx)
      · rfl
      · exfalso
        apply hguard
        rw [Bool.and_eq_true]
        exact ⟨decide_eq_true hl, hcl⟩
  · intro hr
    unfold bestIndex at h
    split at h
    next hguard => omega
    next hguard =>
      rw [hbc] at hguard
      cases hcr : compare (entryKey heap (2 * idx + 1 + 1)) (entryKey heap idx)
      · rfl
      · exfalso
        apply hguard
        rw [Bool.and_eq_true]
        exact ⟨decide_eq_true hr, hcr⟩

/-- When `bestIndex` moves, it moves to a child that is above `idx`, and the
other in-range child is not above the chosen one. -/
theorem bestIndex_step (compare : Rat → Rat → Bool) (hso : StrictOrdering compare)
    (heap : List Entry) (idx size : Nat)
    (h : bestIndex compare heap idx size ≠ idx) :
    compare (entryKey heap (bestIndex compare heap idx size)) (entryKey heap idx) = true ∧
    (bestIndex compare heap idx size - 1) / 2 = idx ∧
    (∀ j, (j - 1) / 2 = idx → 0 < j → j < size → j ≠ bestIndex compare heap idx size →
      compare (entryKey heap j) (entryKey heap (bestIndex compare heap idx size)) = false) := by
  by_cases hr : (2 * idx + 1 + 1 < size &&
      compare (entryKey heap (2 * idx + 1 + 1))
        (entryKey heap (bestChild1 compare heap idx size))) = true
  · have hbeq : bestIndex compare heap idx size = 2 * idx + 1 + 1 := by
      unfold bestIndex
      rw [if_pos hr]
    have hrparts := (Bool.and_eq_true _ _).mp hr
    have hrs : 2 * idx + 1 + 1 < size := of_decide_eq_true hrparts.1
    have hrc := hrparts.2
    by_cases hl : (2 * idx + 1 < size &&
        compare (entryKey heap (2 * idx + 1)) (entryKey heap idx)) = true
    · have hbceq : bestChild1 compare heap idx size = 2 * idx + 1 := by
        unfold bestChild1
        rw [if_pos hl]
      rw [hbceq] at hrc
      have hlc := ((Bool.and_eq_true _ _).mp hl).2
      refine ⟨?_, ?_, ?_⟩
      · rw [hbeq]
        exact hso.2.1 _ _ _ hrc hlc
      · rw [hbeq]
        omega
      · intro j hj hj0 hjs hjne
        rw [hbeq] at hjne ⊢
        have : j = 2 * idx + 1 := by omega
        rw [this]
        exact hso.asymm hrc
    · have hbceq : bestChild1 compare heap idx size = idx := by
        unfold bestChild1
        rw [if_neg hl]
      rw [hbceq] at hrc
      refine ⟨?_, ?_, ?_⟩
      · rw [hbeq]
        exact hrc
      · rw [hbeq]
        omega
      · intro j hj hj0 hjs hjne
        rw [hbeq] at hjne ⊢
        have hjl : j = 2 * idx + 1 := by omega
        rw [hjl]
        have hlf : compare (entryKey heap (2 * idx + 1)) (entryKey heap idx) = false := by
          cases hcl : compare (entryKey heap (2 * idx + 1)) (entryKey heap idx)
          · rfl
          · exact absurd ((Bool.and_eq_true _ _).mpr ⟨decide_eq_true (by omega), hcl⟩) hl
        cases hcl2 : compare (entryKey heap (2 * idx + 1)) (entryKey heap (2 * idx + 1 + 1))
        · rfl
        · exfalso
          have := hso.2.1 _ _ _ hcl2 hrc
          rw [this] at hlf
          cases hlf
  · have hbeq : bestIndex compare heap idx size = bestChild1 compare heap idx size := by
      unfold bestIndex
      rw [if_neg hr]
    rw [hbeq] at h ⊢
    have hlguard : (2 * idx + 1 < size &&
        compare (entryKey heap (2 * idx + 1)) (entryKey heap idx)) = true := by
      cases hg : (2 * idx + 1 < size &&
          compare (entryKey heap (2 * idx + 1)) (entryKey heap idx))
      · exfalso
        apply h
        unfold bestChild1
        rw [hg]
        simp
      · rfl
    have hbceq : bestChild1 compare heap idx size = 2 * idx + 1 := by
      unfold bestChild1
      rw [if_pos hlguard]
    have hlc := ((Bool.and_eq_true _ _).mp hlguard).2
    rw [hbceq]
    refine ⟨hlc, by omega, ?_⟩
    intro j hj hj0 hjs hjne
    have hjr : j = 2 * idx + 1 + 1 := by omega
    rw [hjr]
    cases hcr : compare (entryKey heap (2 * idx + 1 + 1)) (entryKey heap (2 * idx + 1))
    · rfl
    · exfalso
      apply hr
      rw [hbceq]
      exact (Bool.and_eq_true _ _).mpr ⟨decide_eq_true (by omega), hcr⟩

/-- `percolate_down` restores the heap invariant: if every edge except those
from the children of `idx` holds, and no child of `idx` is above `idx`'s
parent, the prefix is a heap afterwards. -/
theorem percolate_down_heap (compare : Rat → Rat → Bool) (hso : StrictOrdering compare)
    (size : Nat) :
    ∀ (heap : List Entry) (idx : Nat), size ≤ heap.length →
      (∀ i, 0 < i → i < size → (i - 1) / 2 ≠ idx →
        compare (entryKey heap i) (entryKey heap ((i - 1) / 2)) = false) →
      (0 < idx → ∀ i, 0 < i → i < size → (i - 1) / 2 = idx →
        compare (entryKey heap i) (entryKey heap ((idx - 1) / 2)) = false) →
      IsHeap compare (percolate_down compare heap idx size) size := by
  refine percolate_down_ind compare size
    (fun heap idx => size ≤ heap.length →
      (∀ i, 0 < i → i < size → (i - 1) / 2 ≠ idx →
        compare (entryKey heap i) (entryKey heap ((i - 1) / 2)) = false) →
      (0 < idx → ∀ i, 0 < i → i < size → (i - 1) / 2 = idx →
        compare (entryKey heap i) (entryKey heap ((idx - 1) / 2)) = false) →
      IsHeap compare (percolate_down compare heap idx size) size) ?_ ?_
  · -- the loop stops: both children are already not above idx
    intro heap idx hstop hlen hrest hgrand
    rw [percolate_down_stop compare heap idx size hstop]
    intro i hi0 hisize
    by_cases hpi : (i - 1) / 2 = idx
    · rw [hpi]
      have hchildren := bestIndex_eq_idx compare heap idx size hstop
      rcases (by omega : i = 2 * idx + 1 ∨ i = 2 * idx + 1 + 1) with hi | hi
      · rw [hi]
        exact hchildren.1 (by omega)
      · rw [hi]
        exact hchildren.2 (by omega)
    · exact hrest i hi0 hisize hpi
  · -- the loop swaps toward the best child and continues there
    intro heap idx hne ih hlen hrest hgrand
    have hb := bestIndex_lt compare heap idx size hne
    have hspec := bestIndex_step compare hso heap idx size hne
    have hkey : ∀ t, entryKey (listSwap heap idx (bestIndex compare heap idx size)) t =
        if t = bestIndex compare heap idx size then entryKey heap idx
        else if t = idx then entryKey heap (bestIndex compare heap idx size)
        else entryKey heap t :=
      fun t => entryKey_swap heap idx (bestIndex compare heap idx size) t
        (by omega) (by omega)
    rw [percolate_down_swap compare heap idx size hne]
    refine ih ?_ ?_ ?_
    · rw [listSwap_length]
      exact hlen
    · -- every edge except those from the children of the new position holds
      intro i hi0 hisize hpib
      by_cases hib : i = bestIndex compare heap idx size
      · rw [hib, hkey (bestIndex compare heap idx size), hspec.2.1,
          hkey idx]
        rw [if_pos rfl, if_neg (by omega), if_pos rfl]
        exact hso.asymm hspec.1
      · by_cases hiidx : i = idx
        · have hidx0 : 0 < idx := by omega
          rw [hiidx, hkey idx, hkey ((idx - 1) / 2)]
          rw [if_neg (by omega), if_pos rfl, if_neg (by omega), if_neg (by omega)]
          exact hgrand hidx0 (bestIndex compare heap idx size) (by omega) (by omega)
            hspec.2.1
        · by_cases hpi : (i - 1) / 2 = idx
          · rw [hpi, hkey i, hkey idx]
            rw [if_neg hib, if_neg hiidx, if_neg (by omega), if_pos rfl]
            exact hspec.2.2 i hpi hi0 hisize hib
          · rw [hkey i, hkey ((i - 1) / 2)]
            rw [if_neg hib, if_neg hiidx, if_neg hpib, if_neg hpi]
            exact hrest i hi0 hisize hpi
    · -- children of the new position are not above its parent
      intro hb0 i hi0 hisize hpib
      rw [hspec.2.1, hkey i, hkey idx]
      rw [if_neg (by omega), if_neg (by omega), if_neg (by omega), if_pos rfl]
      have := hrest i hi0 hisize (by omega)
      rw [hpib] at this
      exact this

/-- In a heap no element compares above the root. -/
theorem isHeap_root_above (compare : Rat → Rat → Bool) (hso : StrictOrdering compare)
    (heap : List Entry) (size : Nat) (hheap : IsHeap compare heap size) :
    ∀ i, i < size → compare (entryKey heap i) (entryKey heap 0) = false := by
  intro i
  induction i using Nat.strong_induction_on with
  | _ i ih =>
    intro hi
    rcases Nat.eq_zero_or_pos i with h0 | h0
    · rw [h0]
      exact hso.1 _
    · exact hso.negtrans (hheap i h0 hi) (ih ((i - 1) / 2) (by omega) (by omega))

/-- Every member of the heap sits at an in-range index. -/
theorem mem_entryKey (heap : List Entry) (e : Entry) (he : e ∈ heap) :
    ∃ i, i < heap.length ∧ entryKey heap i = e.1 := by
  rcases List.mem_iff_getElem.mp he with ⟨i, hi, hei⟩
  refine ⟨i, hi, ?_⟩
  rw [entryKey, List.getD_eq_getElem?_getD, List.getElem?_eq_getElem hi, hei]
  rfl

/-- In-range `getD` through `dropLast`. -/
theorem getD_dropLast {α : Type} (l : List α) (i : Nat) (d : α) (h : i < l.length - 1) :
    l.dropLast.getD i d = l.getD i d := by
  have h1 : i < l.dropLast.length := by
    rw [List.length_dropLast]
    exact h
  rw [List.getD_eq_getElem?_getD, List.getD_eq_getElem?_getD,
    List.getElem?_eq_getElem h1, List.getElem?_eq_getElem (by omega)]
  rw [List.getElem_dropLast]

/-- The shrunken array the extraction loop hands to `percolate_down`: the last
live element moved to the root, over the remaining entries. -/
theorem heap1_eq (root : Entry) (rest : List Entry) (hne : rest ≠ []) :
    ((root :: rest).set 0
        ((root :: rest).getD ((root :: rest).length - 1) default)).dropLast =
      rest.getLast hne :: rest.dropLast := by
  have hlast : (root :: rest).getD ((root :: rest).length - 1) default =
      rest.getLast hne := by
    have hlen : (root :: rest).length - 1 = (rest.length - 1) + 1 := by
      have : rest.length ≠ 0 := fun h => hne (List.eq_nil_of_length_eq_zero h)
      simp only [List.length_cons]
      omega
    rw [hlen, List.getD_cons_succ, List.getLast_eq_getElem,
      List.getD_eq_getElem?_getD, List.getElem?_eq_getElem (by
        have : rest.length ≠ 0 := fun h => hne (List.eq_nil_of_length_eq_zero h)
        omega)]
    rfl
  rw [hlast, List.set_cons_zero]
  exact List.dropLast_cons_of_ne_nil hne

/-- `afterPop` on a one-element heap empties it. -/
theorem afterPop_single (compare : Rat → Rat → Bool) (root : Entry) :
    afterPop compare [root] = [] := rfl

/-- `afterPop` permutes the remaining entries. -/
theorem afterPop_perm (compare : Rat → Rat → Bool) (root : Entry) (rest : List Entry) :
    (afterPop compare (root :: rest)).Perm rest := by
  cases hrest : rest with
  | nil => rw [afterPop_single]
  | cons e t =>
    have hne : e :: t ≠ [] := List.cons_ne_nil e t
    simp only [afterPop]
    rw [heap1_eq root (e :: t) hne]
    have hperm1 : ((e :: t).getLast hne :: (e :: t).dropLast).Perm (e :: t) := by
      refine ((List.perm_append_singleton _ _).symm).trans ?_
      rw [List.dropLast_append_getLast hne]
    split
    · refine (percolate_down_perm compare _ _ _ le_rfl).trans hperm1
    · exact hperm1

/-- `afterPop` of a heap is again a heap over its whole length. -/
theorem afterPop_isHeap (compare : Rat → Rat → Bool) (hso : StrictOrdering compare)
    (root : Entry) (rest : List Entry)
    (hheap : IsHeap compare (root :: rest) (root :: rest).length) :
    IsHeap compare (afterPop compare (root :: rest))
      (afterPop compare (root :: rest)).length := by
  cases hrest : rest with
  | nil =>
    rw [afterPop_single]
    intro i hi0 hilen
    simp at hilen
  | cons e t =>
    have hne : e :: t ≠ [] := List.cons_ne_nil e t
    have hlen1 : ((e :: t).getLast hne :: (e :: t).dropLast).length = (e :: t).length := by
      simp only [List.length_cons, List.length_dropLast]
      simp
    have hkeys : ∀ i, 0 < i → i < (e :: t).length →
        entryKey ((e :: t).getLast hne :: (e :: t).dropLast) i =
          entryKey (root :: e :: t) i := by
      intro i hi0 hilen
      unfold entryKey
      rcases Nat.exists_eq_add_of_lt hi0 with ⟨k, hk⟩
      have hik : i = k + 1 := by omega
      rw [hik, List.getD_cons_succ, List.getD_cons_succ]
      rw [getD_dropLast _ _ _ (by simp only [List.length_cons] at hilen ⊢; omega)]
    subst hrest
    rw [afterPop_length]
    simp only [afterPop]
    rw [heap1_eq root (e :: t) hne]
    have hszeq : (root :: e :: t).length - 1 =
        ((e :: t).getLast hne :: (e :: t).dropLast).length := by
      rw [hlen1]
      simp
    rw [hszeq]
    split
    next hpos =>
      refine percolate_down_heap compare hso _ _ _ le_rfl ?_ ?_
      · intro i hi0 hisize hpi
        rw [hlen1] at hisize
        have hpar0 : 0 < (i - 1) / 2 := by omega
        rw [hkeys i hi0 hisize, hkeys ((i - 1) / 2) hpar0 (by omega)]
        exact hheap i hi0 (by simp only [List.length_cons] at hisize ⊢; omega)
      · intro h0
        omega
    next hpos =>
      exfalso
      apply hpos
      rw [hlen1]
      simp

/-- Unfolding `extractEntries` on the empty heap. -/
theorem extractEntries_nil (compare : Rat → Rat → Bool) :
    extractEntries compare [] = [] := by
  rw [extractEntries]

/-- Unfolding `extractEntries` on a nonempty heap. -/
theorem extractEntries_cons (compare : Rat → Rat → Bool) (root : Entry)
    (rest : List Entry) :
    extractEntries compare (root :: rest) =
      root :: extractEntries compare (afterPop compare (root :: rest)) := by
  rw [extractEntries]

/-- Unfolding `extractLoop` on the empty heap. -/
theorem extractLoop_nil (compare : Rat → Rat → Bool) :
    extractLoop compare [] = [] := by
  rw [extractLoop]

/-- Unfolding `extractLoop` on a nonempty heap. -/
theorem extractLoop_cons (compare : Rat → Rat → Bool) (root : Entry)
    (rest : List Entry) :
    extractLoop compare (root :: rest) =
      root.2 :: extractLoop compare (afterPop compare (root :: rest)) := by
  rw [extractLoop]

/-- `extractLoop` outputs the players of the entries `extractEntries` outputs. -/
theorem extractLoop_eq_map (compare : Rat → Rat → Bool) :
    ∀ (n : Nat) (heap : List Entry), heap.length ≤ n →
      extractLoop compare heap = (extractEntries compare heap).map Prod.snd := by
  intro n
  induction n with
  | zero =>
    intro heap hlen
    have : heap = [] := List.eq_nil_of_length_eq_zero (by omega)
    rw [this, extractLoop_nil, extractEntries_nil]
    rfl
  | succ n ih =>
    intro heap hlen
    cases heap with
    | nil =>
      rw [extractLoop_nil, extractEntries_nil]
      rfl
    | cons root rest =>
      rw [extractLoop_cons, extractEntries_cons, List.map_cons]
      rw [ih (afterPop compare (root :: rest)) (by
        rw [afterPop_length]
        simp only [List.length_cons] at hlen ⊢
        omega)]

/-- The extraction loop permutes the heap entries. -/
theorem extractEntries_perm (compare : Rat → Rat → Bool) :
    ∀ (n : Nat) (heap : List Entry), heap.length ≤ n →
      (extractEntries compare heap).Perm heap := by
  intro n
  induction n with
  | zero =>
    intro heap hlen
    have : heap = [] := List.eq_nil_of_length_eq_zero (by omega)
    rw [this, extractEntries_nil]
  | succ n ih =>
    intro heap hlen
    cases heap with
    | nil => rw [extractEntries_nil]
    | cons root rest =>
      rw [extractEntries_cons]
      have hap := afterPop_perm compare root rest
      have hlen2 : (afterPop compare (root :: rest)).length ≤ n := by
        rw [afterPop_length]
        simp only [List.length_cons] at hlen ⊢
        omega
      exact ((ih _ hlen2).trans hap).cons root

/-- The extraction loop outputs the entries in heap order: no later entry's
key compares above an earlier one's. -/
theorem extractEntries_sorted (compare : Rat → Rat → Bool) (hso : StrictOrdering compare) :
    ∀ (n : Nat) (heap : List Entry), heap.length ≤ n →
      IsHeap compare heap heap.length →
      List.Pairwise (fun a b : Entry => compare b.1 a.1 = false)
        (extractEntries compare heap) := by
  intro n
  induction n with
  | zero =>
    intro heap hlen _
    have : heap = [] := List.eq_nil_of_length_eq_zero (by omega)
    rw [this, extractEntries_nil]
    exact List.Pairwise.nil
  | succ n ih =>
    intro heap hlen hheap
    cases heap with
    | nil =>
      rw [extractEntries_nil]
      exact List.Pairwise.nil
    | cons root rest =>
      rw [extractEntries_cons]
      have hlen2 : (afterPop compare (root :: rest)).length ≤ n := by
        rw [afterPop_length]
        simp only [List.length_cons] at hlen ⊢
        omega
      refine List.pairwise_cons.mpr ⟨?_, ?_⟩
      · intro e he
        have h1 : e ∈ afterPop compare (root :: rest) :=
          (extractEntries_perm compare n _ hlen2).subset he
        have h2 : e ∈ rest := (afterPop_perm compare root rest).subset h1
        have h3 : e ∈ root :: rest := List.mem_cons_of_mem root h2
        rcases mem_entryKey _ e h3 with ⟨i, hi, hkeyi⟩
        have hmax := isHeap_root_above compare hso _ _ hheap i hi
        rw [hkeyi] at hmax
        exact hmax
      · cases hrest : rest with
        | nil =>
          rw [afterPop_single, extractEntries_nil]
          exact List.Pairwise.nil
        | cons e t =>
          rw [hrest] at hlen2 hheap
          exact ih _ hlen2 (afterPop_isHeap compare hso root (e :: t) hheap)

/-!
## heapsort and strategy-level lemmas
-/

/-- `heapsort` with a recognised stat key permutes its input. -/
theorem heapsort_perm (players : List Player) (stat : String) (descending : Bool)
    (attr : Player → Rat) (h : statLookup stat = some attr) :
    ∃ out, heapsort players stat descending = .ok out ∧ out.Perm players := by
  unfold heapsort
  rw [h]
  refine ⟨_, rfl, ?_⟩
  have hso := heapCompare_strict descending
  rw [extractLoop_eq_map (heapCompare descending) _ _ le_rfl]
  have hperm := extractEntries_perm (heapCompare descending) _
    (heapify (heapCompare descending) (players.map (fun p => (attr p, p)))) le_rfl
  refine (hperm.map Prod.snd).trans ?_
  refine ((heapify_perm (heapCompare descending) hso
    (players.map (fun p => (attr p, p)))).map Prod.snd).trans ?_
  rw [List.map_map]
  have hcomp : (Prod.snd ∘ fun p : Player => (attr p, p)) = id := rfl
  rw [hcomp, List.map_id]

/-- `heapsort` with a recognised stat key returns an adjacent-ordered list. -/
theorem heapsort_sorted (players : List Player) (stat : String) (descending : Bool)
    (attr : Player → Rat) (h : statLookup stat = some attr) :
    ∃ out, heapsort players stat descending = .ok out ∧
      adjacentOrdered attr descending out := by
  unfold heapsort
  rw [h]
  refine ⟨_, rfl, ?_⟩
  have hso := heapCompare_strict descending
  have hs := extractEntries_sorted (heapCompare descending) hso _
    (heapify (heapCompare descending) (players.map (fun p => (attr p, p)))) le_rfl
    (heapify_isHeap (heapCompare descending) hso _)
  have hmem : ∀ e ∈ extractEntries (heapCompare descending)
      (heapify (heapCompare descending) (players.map (fun p => (attr p, p)))),
      e.1 = attr e.2 := by
    intro e he
    have h1 := (extractEntries_perm (heapCompare descending) _ _ le_rfl).subset he
    have h2 := (heapify_perm (heapCompare descending) hso _).subset h1
    rcases List.mem_map.mp h2 with ⟨p, _, hp⟩
    rw [← hp]
  have hs2 : List.Pairwise
      (fun a b : Entry => heapCompare descending (attr b.2) (attr a.2) = false)
      (extractEntries (heapCompare descending)
        (heapify (heapCompare descending) (players.map (fun p => (attr p, p))))) := by
    refine hs.imp_of_mem ?_
    intro a b ha hb hab
    rw [← hmem a ha, ← hmem b hb]
    exact hab
  rw [extractLoop_eq_map (heapCompare descending) _ _ le_rfl]
  unfold adjacentOrdered
  refine List.Pairwise.chain' ?_
  rw [List.pairwise_map]
  refine hs2.imp ?_
  intro a b hab
  cases descending
  · rw [heapCompare_false] at hab
    simp only [Bool.false_eq_true, if_false]
    exact le_of_not_lt (by simpa using hab)
  · rw [heapCompare_true] at hab
    simp only [if_true]
    exact le_of_not_lt (by simpa using hab)

/-- `insertion_sort` leaves an already-ordered input unchanged. -/
theorem insertion_sort_of_sorted (players : List Player) (stat : String)
    (descending : Bool) (attr : Player → Rat) (h : statLookup stat = some attr)
    (hsorted : adjacentOrdered attr descending players) :
    insertion_sort players stat descending = .ok players := by
  unfold insertion_sort
  rw [h]
  show Except.ok (insLoop (inOrderTest descending) attr [] players) = Except.ok players
  have hchain : List.Chain'
      (fun a b => inOrderTest descending (attr b) (attr a) = true)
      (([] : List Player).reverse ++ players) := by
    simp only [List.reverse_nil, List.nil_append]
    refine List.Chain'.imp ?_ hsorted
    intro a b hab
    unfold inOrderTest
    cases descending
    · simp only [Bool.false_eq_true, if_false] at hab ⊢
      exact decide_eq_true hab
    · simp only [if_true] at hab ⊢
      exact decide_eq_true hab
  rw [insLoop_of_sorted (inOrderTest descending) attr players [] hchain]
  simp

/-- An adjacent-ordered permutation of an adjacent-ordered list with
pairwise-distinct stat values is that list itself: with no ties, the sorted
arrangement is unique, whatever tie order the sorting primitive uses. -/
theorem eq_of_perm_ordered_distinct (attr : Player → Rat) (descending : Bool)
    {out players : List Player} (hperm : out.Perm players)
    (hsort2 : adjacentOrdered attr descending out)
    (hsorted : adjacentOrdered attr descending players)
    (hdist : List.Pairwise (fun x y => attr x ≠ attr y) players) :
    out = players := by
  have hinst : IsTrans Player
      (fun x y => if descending then attr y ≤ attr x else attr x ≤ attr y) := by
    constructor
    intro a b c hab hbc
    cases descending
    · simp only [Bool.false_eq_true, if_false] at hab hbc ⊢
      exact hab.trans hbc
    · simp only [if_true] at hab hbc ⊢
      exact hbc.trans hab
  have hp1 : List.Pairwise
      (fun x y => if descending then attr y ≤ attr x else attr x ≤ attr y) out :=
    (@List.chain'_iff_pairwise _ _ hinst _).mp hsort2
  have hp2 : List.Pairwise
      (fun x y => if descending then attr y ≤ attr x else attr x ≤ attr y) players :=
    (@List.chain'_iff_pairwise _ _ hinst _).mp hsorted
  have hkeyinj : ∀ x ∈ players, ∀ y ∈ players, attr x = attr y → x = y := by
    intro x hx y hy heq
    by_cases hxy : x = y
    · exact hxy
    · exfalso
      have hsym : Symmetric (fun x y : Player => attr x ≠ attr y) :=
        fun a b hab hba => hab hba.symm
      exact (hdist.forall hsym hx hy hxy) heq
  have hanti : ∀ x ∈ out, ∀ y ∈ out,
      (if descending then attr y ≤ attr x else attr x ≤ attr y) →
      (if descending then attr x ≤ attr y else attr y ≤ attr x) → x = y := by
    intro x hx y hy hxy hyx
    have hxp := hperm.subset hx
    have hyp := hperm.subset hy
    refine hkeyinj x hxp y hyp ?_
    cases descending
    · simp only [Bool.false_eq_true, if_false] at hxy hyx
      exact le_antisymm hxy hyx
    · simp only [if_true] at hxy hyx
      exact le_antisymm hyx hxy
  exact sorted_perm_eq hperm hp1 hp2 hanti

/-- With pairwise-distinct stat values, `heapsort` leaves an already-ordered
input unchanged. -/
theorem heapsort_of_sorted_distinct (players : List Player) (stat : String)
    (descending : Bool) (attr : Player → Rat) (h : statLookup stat = some attr)
    (hsorted : adjacentOrdered attr descending players)
    (hdist : List.Pairwise (fun x y => attr x ≠ attr y) players) :
    heapsort players stat descending = .ok players := by
  rcases heapsort_perm players stat descending attr h with ⟨out, hout, hperm⟩
  rcases heapsort_sorted players stat descending attr h with ⟨out2, hout2, hsort2⟩
  rw [hout] at hout2
  have houteq : out = out2 := by
    cases hout2
    rfl
  rw [← houteq] at hsort2
  rw [eq_of_perm_ordered_distinct attr descending hperm hsort2 hsorted hdist] at hout
  exact hout

/-- With pairwise-distinct stat values, `numpy_sort` leaves an already-ordered
input unchanged, regardless of how the indirect sort orders ties. -/
theorem numpy_sort_of_sorted_distinct (players : List Player) (stat : String)
    (descending : Bool) (attr : Player → Rat) (h : statLookup stat = some attr)
    (hsorted : adjacentOrdered attr descending players)
    (hdist : List.Pairwise (fun x y => attr x ≠ attr y) players) :
    numpy_sort players stat descending = .ok players := by
  rcases numpy_sort_perm players stat descending attr h with ⟨out, hout, hperm⟩
  rcases numpy_sort_sorted players stat descending attr h with ⟨out2, hout2, hsort2⟩
  rw [hout] at hout2
  have houteq : out = out2 := by
    cases hout2
    rfl
  rw [← houteq] at hsort2
  rw [eq_of_perm_ordered_distinct attr descending hperm hsort2 hsorted hdist] at hout
  exact hout

/-- A node with no in-range children is left alone by the selection. -/
theorem bestIndex_of_leaf (compare : Rat → Rat → Bool) (heap : List Entry)
    (idx size : Nat) (h : ¬ 2 * idx + 1 < size) :
    bestIndex compare heap idx size = idx := by
  have hbc : bestChild1 compare heap idx size = idx := by
    unfold bestChild1
    rw [decide_eq_false h, Bool.false_and]
    simp
  unfold bestIndex
  rw [decide_eq_false (by omega : ¬ 2 * idx + 1 + 1 < size), Bool.false_and]
  simp [hbc]

/-- With `size - idx` units of fuel, the fuel-bounded loop body computes
exactly `percolate_down`: the loop never needs more iterations than that. -/
theorem pdFuel_eq (compare : Rat → Rat → Bool) (size : Nat) :
    ∀ (fuel : Nat) (heap : List Entry) (idx : Nat), size - idx ≤ fuel →
      pdFuel compare fuel heap idx size = percolate_down compare heap idx size := by
  intro fuel
  induction fuel with
  | zero =>
    intro heap idx hle
    show heap = percolate_down compare heap idx size
    rw [percolate_down_stop compare heap idx size
      (bestIndex_of_leaf compare heap idx size (by omega))]
  | succ n ih =>
    intro heap idx hle
    rw [pdFuel]
    by_cases hb : bestIndex compare heap idx size = idx
    · rw [if_pos hb, percolate_down_stop compare heap idx size hb]
    · rw [if_neg hb, percolate_down_swap compare heap idx size hb]
      refine ih _ _ ?_
      have := bestIndex_lt compare heap idx size hb
      omega

/-- Case analysis of the spec's candidate child. -/
theorem specBestChild_cases (compare : Rat → Rat → Bool) (heap : List Entry)
    (idx size c : Nat) (h : specBestChild compare heap idx size = some c) :
    2 * idx + 1 < size ∧
      ((c = 2 * idx + 1 ∧ (¬ 2 * idx + 2 < size ∨
          compare (entryKey heap (2 * idx + 2)) (entryKey heap (2 * idx + 1)) = false)) ∨
       (c = 2 * idx + 2 ∧ 2 * idx + 2 < size ∧
          compare (entryKey heap (2 * idx + 2)) (entryKey heap (2 * idx + 1)) = true)) := by
  unfold specBestChild at h
  split at h
  next hr =>
    refine ⟨by omega, ?_⟩
    cases hcmp : compare (entryKey heap (2 * idx + 2)) (entryKey heap (2 * idx + 1))
    · left
      rw [hcmp] at h
      simp only [Bool.false_eq_true, if_false] at h
      exact ⟨(Option.some.inj h).symm, Or.inr rfl⟩
    · right
      rw [hcmp] at h
      rw [if_pos rfl] at h
      exact ⟨(Option.some.inj h).symm, hr, rfl⟩
  next hr =>
    split at h
    next hl =>
      refine ⟨hl, Or.inl ⟨(Option.some.inj h).symm, Or.inl hr⟩⟩
    next hl => cases h


/-- If the selection lands on the right child, either the right child is above
the left one, or the left child is not above the current element. -/
theorem bestIndex_right (compare : Rat → Rat → Bool) (heap : List Entry)
    (idx size : Nat) (h : bestIndex compare heap idx size = 2 * idx + 1 + 1) :
    compare (entryKey heap (2 * idx + 1 + 1)) (entryKey heap (2 * idx + 1)) = true ∨
      compare (entryKey heap (2 * idx + 1)) (entryKey heap idx) = false := by
  unfold bestIndex at h
  split at h
  next hg =>
    have hgparts := (Bool.and_eq_true _ _).mp hg
    have hgc := hgparts.2
    have hrs : 2 * idx + 1 + 1 < size := of_decide_eq_true hgparts.1
    unfold bestChild1 at hgc
    split at hgc
    · exact Or.inl hgc
    next hl =>
      right
      cases hv : compare (entryKey heap (2 * idx + 1)) (entryKey heap idx)
      · rfl
      · exfalso
        apply hl
        exact (Bool.and_eq_true _ _).mpr ⟨decide_eq_true (by omega), hv⟩
  next hg =>
    exfalso
    unfold bestChild1 at h
    split at h <;> omega

/-- The spec's wording of `percolate_down` computes the same function as the
source's, for any strict ordering predicate. -/
theorem spec_percolate_down_eq (compare : Rat → Rat → Bool) (hso : StrictOrdering compare)
    (size : Nat) :
    ∀ (heap : List Entry) (idx : Nat),
      spec_percolate_down compare heap idx size = percolate_down compare heap idx size := by
  have H : ∀ (n : Nat) (heap : List Entry) (idx : Nat), size - idx ≤ n →
      spec_percolate_down compare heap idx size = percolate_down compare heap idx size := by
    intro n
    induction n with
    | zero =>
      intro heap idx hle
      rw [percolate_down_stop compare heap idx size
        (bestIndex_of_leaf compare heap idx size (by omega))]
      rw [spec_percolate_down]
      split
      · rfl
      next c heq =>
        exfalso
        have := specBestChild_cases compare heap idx size c heq
        omega
    | succ n ih =>
      intro heap idx hle
      rw [spec_percolate_down]
      split
      next heq =>
        have hleaf : ¬ 2 * idx + 1 < size := by
          unfold specBestChild at heq
          split at heq
          · cases heq
          next hr =>
            split at heq
            · cases heq
            next hl => exact hl
        rw [percolate_down_stop compare heap idx size
          (bestIndex_of_leaf compare heap idx size hleaf)]
      next c heq =>
        rcases specBestChild_cases compare heap idx size c heq with ⟨hlin, hcc⟩
        by_cases hcmp : compare (entryKey heap c) (entryKey heap idx) = true
        · rw [if_pos hcmp]
          have hbc : bestIndex compare heap idx size = c := by
            by_cases hb : bestIndex compare heap idx size = idx
            · exfalso
              have hch := bestIndex_eq_idx compare heap idx size hb
              rcases hcc with ⟨hc, _⟩ | ⟨hc, hrr, _⟩
              · rw [hc] at hcmp
                rw [hch.1 hlin] at hcmp
                cases hcmp
              · rw [hc] at hcmp
                have hch2 : compare (entryKey heap (2 * idx + 2)) (entryKey heap idx) = false :=
                  hch.2 (by omega)
                rw [hch2] at hcmp
                cases hcmp
            · have hspec := bestIndex_step compare hso heap idx size hb
              have hblt := bestIndex_lt compare heap idx size hb
              have hbchild : bestIndex compare heap idx size = 2 * idx + 1 ∨
                  bestIndex compare heap idx size = 2 * idx + 2 := by
                have := hspec.2.1
                omega
              by_contra hne
              rcases hcc with ⟨hc, hsib⟩ | ⟨hc, hr, hrl⟩
              · -- candidate is the left child, so the selection sits on the right child
                have hbr : bestIndex compare heap idx size = 2 * idx + 2 := by
                  rcases hbchild with hh | hh
                  · exfalso
                    apply hne
                    rw [hh, hc]
                  · exact hh
                rcases bestIndex_right compare heap idx size (by rw [hbr]) with hrl2 | hlf
                · rcases hsib with hout | hcrl
                  · exact hout (by omega)
                  · have hrl3 : compare (entryKey heap (2 * idx + 2))
                        (entryKey heap (2 * idx + 1)) = true := hrl2
                    rw [hrl3] at hcrl
                    cases hcrl
                · rw [hc] at hcmp
                  rw [hlf] at hcmp
                  cases hcmp
              · -- candidate is the right child, so the selection sits on the left child
                have hbl : bestIndex compare heap idx size = 2 * idx + 1 := by
                  rcases hbchild with hh | hh
                  · exact hh
                  · exfalso
                    apply hne
                    rw [hh, hc]
                have hsibfact := hspec.2.2 (2 * idx + 2) (by omega) (by omega) hr
                  (by rw [hbl]; omega)
                rw [hbl] at hsibfact
                rw [hrl] at hsibfact
                cases hsibfact
          · rw [percolate_down_swap compare heap idx size (by rw [hbc]; omega), hbc]
            refine ih _ _ ?_
            have hclt : idx < c := by omega
            omega
        · rw [if_neg hcmp]
          rw [Bool.not_eq_true] at hcmp
          by_cases hb : bestIndex compare heap idx size = idx
          · rw [percolate_down_stop compare heap idx size hb]
          · exfalso
            have hspec := bestIndex_step compare hso heap idx size hb
            have hblt := bestIndex_lt compare heap idx size hb
            have hbchild : bestIndex compare heap idx size = 2 * idx + 1 ∨
                bestIndex compare heap idx size = 2 * idx + 2 := by
              have := hspec.2.1
              omega
            rcases hcc with ⟨hc, hsib⟩ | ⟨hc, hr, hrl⟩
            · rcases hbchild with hh | hh
              · rw [hh, ← hc] at hspec
                rw [hspec.1] at hcmp
                cases hcmp
              · rcases hsib with hout | hcrl
                · exact hout (by omega)
                · rw [hc] at hcmp
                  rw [hh] at hspec
                  have hneg : compare (entryKey heap (2 * idx + 2)) (entryKey heap idx) = false :=
                    hso.negtrans hcrl hcmp
                  rw [hneg] at hspec
                  cases hspec.1
            · rcases hbchild with hh | hh
              · have hsibfact := hspec.2.2 (2 * idx + 2) (by omega) (by omega) hr
                  (by rw [hh]; omega)
                rw [hh] at hsibfact
                rw [hrl] at hsibfact
                cases hsibfact
              · rw [hh, ← hc] at hspec
                rw [hspec.1] at hcmp
                cases hcmp
  intro heap idx
  exact H (size - idx) heap idx le_rfl

/-- The `in_order` test is total in either direction. -/
theorem inOrderTest_total (descending : Bool) (a b : Rat) :
    inOrderTest descending a b = true ∨ inOrderTest descending b a = true := by
  unfold inOrderTest
  cases descending
  · simp only [Bool.false_eq_true, if_false]
    rcases le_total b a with hh | hh
    · exact Or.inl (decide_eq_true hh)
    · exact Or.inr (decide_eq_true hh)
  · simp only [if_true]
    rcases le_total a b with hh | hh
    · exact Or.inl (decide_eq_true hh)
    · exact Or.inr (decide_eq_true hh)

/-- The `in_order` test is transitive in either direction. -/
theorem inOrderTest_trans (descending : Bool) (a b c : Rat)
    (h1 : inOrderTest descending a b = true) (h2 : inOrderTest descending b c = true) :
    inOrderTest descending a c = true := by
  unfold inOrderTest at h1 h2 ⊢
  cases descending
  · simp only [Bool.false_eq_true, if_false, decide_eq_true_eq] at h1 h2 ⊢
    exact h2.trans h1
  · simp only [if_true, decide_eq_true_eq] at h1 h2 ⊢
    exact h1.trans h2

/-- The `in_order` test holds on ties. -/
theorem inOrderTest_refl (descending : Bool) (a : Rat) :
    inOrderTest descending a a = true := by
  unfold inOrderTest
  cases descending
  · simp
  · simp

/-- `insertion_sort` with a recognised stat key returns an adjacent-ordered
list. -/
theorem insertion_sort_sorted (players : List Player) (stat : String)
    (descending : Bool) (attr : Player → Rat) (h : statLookup stat = some attr) :
    ∃ out, insertion_sort players stat descending = .ok out ∧
      adjacentOrdered attr descending out := by
  unfold insertion_sort
  rw [h]
  refine ⟨_, rfl, ?_⟩
  have hp := insLoop_sorted (inOrderTest descending) attr (inOrderTest_total descending)
    (inOrderTest_trans descending) players [] (by simp)
  unfold adjacentOrdered
  refine List.Pairwise.chain' ?_
  refine hp.imp ?_
  intro a b hab
  unfold insRel inOrderTest at hab
  cases descending
  · simp only [Bool.false_eq_true, if_false, decide_eq_true_eq] at hab ⊢
    exact hab
  · simp only [if_true, decide_eq_true_eq] at hab ⊢
    exact hab

/-- `insertion_sort` with a recognised stat key preserves, for every key
value, the subsequence of players carrying that value (stability). -/
theorem insertion_sort_stable (players : List Player) (stat : String)
    (descending : Bool) (attr : Player → Rat) (h : statLookup stat = some attr) :
    ∃ out, insertion_sort players stat descending = .ok out ∧
      ∀ v, out.filter (fun p => decide (attr p = v)) =
        players.filter (fun p => decide (attr p = v)) := by
  unfold insertion_sort
  rw [h]
  refine ⟨_, rfl, ?_⟩
  intro v
  rw [insLoop_filter (inOrderTest descending) attr (inOrderTest_refl descending) v players []]
  simp

/-- `time_algorithm` runs exactly `repeats` trials. -/
theorem trialTimings_length (clock : Nat → ℝ) (repeats : Nat) :
    (trialTimings clock repeats).length = repeats := by
  simp [trialTimings]

/-!
## Claims
-/

/-- C1: for every list of players, every recognised stat key and every
direction flag, the output of each of the three sort strategies —
`numpy_sort`, `insertion_sort` and `heapsort` — is a permutation of the input
list: the same multiset of players, none added, lost or duplicated. -/
theorem claim_C1_sort_permutation (players : List Player) (stat : String)
    (descending : Bool) (attr : Player → Rat) (h : statLookup stat = some attr) :
    (∃ out, numpy_sort players stat descending = .ok out ∧ out.Perm players) ∧
    (∃ out, insertion_sort players stat descending = .ok out ∧ out.Perm players) ∧
    (∃ out, heapsort players stat descending = .ok out ∧ out.Perm players) :=
  ⟨numpy_sort_perm players stat descending attr h,
   insertion_sort_perm players stat descending attr h,
   heapsort_perm players stat descending attr h⟩

/-- Witness for C1 at a concrete input. -/
theorem claim_C1_sort_permutation_witness :
    statLookup "ppg" = some Player.points_per_game ∧
    ((∃ out, numpy_sort [⟨"A", "T", 3, 0, 0, 0⟩, ⟨"B", "T", 5, 0, 0, 0⟩] "ppg" true = .ok out ∧
        out.Perm [⟨"A", "T", 3, 0, 0, 0⟩, ⟨"B", "T", 5, 0, 0, 0⟩]) ∧
     (∃ out, insertion_sort [⟨"A", "T", 3, 0, 0, 0⟩, ⟨"B", "T", 5, 0, 0, 0⟩] "ppg" true = .ok out ∧
        out.Perm [⟨"A", "T", 3, 0, 0, 0⟩, ⟨"B", "T", 5, 0, 0, 0⟩]) ∧
     (∃ out, heapsort [⟨"A", "T", 3, 0, 0, 0⟩, ⟨"B", "T", 5, 0, 0, 0⟩] "ppg" true = .ok out ∧
        out.Perm [⟨"A", "T", 3, 0, 0, 0⟩, ⟨"B", "T", 5, 0, 0, 0⟩])) :=
  ⟨rfl, claim_C1_sort_permutation [⟨"A", "T", 3, 0, 0, 0⟩, ⟨"B", "T", 5, 0, 0, 0⟩] "ppg" true
    Player.points_per_game rfl⟩

/-- C2: for every list of players, every recognised stat key and each of the
three sort strategies, every adjacent pair `(x, y)` of the returned list
satisfies `value x ≥ value y` when descending and `value x ≤ value y` when
ascending. -/
theorem claim_C2_sort_adjacent_ordered (players : List Player) (stat : String)
    (descending : Bool) (attr : Player → Rat) (h : statLookup stat = some attr) :
    (∃ out, numpy_sort players stat descending = .ok out ∧
      adjacentOrdered attr descending out) ∧
    (∃ out, insertion_sort players stat descending = .ok out ∧
      adjacentOrdered attr descending out) ∧
    (∃ out, heapsort players stat descending = .ok out ∧
      adjacentOrdered attr descending out) :=
  ⟨numpy_sort_sorted players stat descending attr h,
   insertion_sort_sorted players stat descending attr h,
   heapsort_sorted players stat descending attr h⟩

/-- Witness for C2 at a concrete input. -/
theorem claim_C2_sort_adjacent_ordered_witness :
    statLookup "apg" = some Player.assists_per_game ∧
    ((∃ out, numpy_sort [⟨"A", "T", 3, 0, 2, 0⟩, ⟨"B", "T", 5, 0, 8, 0⟩] "apg" false = .ok out ∧
        adjacentOrdered Player.assists_per_game false out) ∧
     (∃ out, insertion_sort [⟨"A", "T", 3, 0, 2, 0⟩, ⟨"B", "T", 5, 0, 8, 0⟩] "apg" false = .ok out ∧
        adjacentOrdered Player.assists_per_game false out) ∧
     (∃ out, heapsort [⟨"A", "T", 3, 0, 2, 0⟩, ⟨"B", "T", 5, 0, 8, 0⟩] "apg" false = .ok out ∧
        adjacentOrdered Player.assists_per_game false out)) :=
  ⟨rfl, claim_C2_sort_adjacent_ordered [⟨"A", "T", 3, 0, 2, 0⟩, ⟨"B", "T", 5, 0, 8, 0⟩]
    "apg" false Player.assists_per_game rfl⟩

/-- C3: `insertion_sort` is stable: for every input, recognised stat key and
direction, the players carrying any one value of the selected stat appear in
the output in the same relative order as in the input (their filtered
subsequences coincide). -/
theorem claim_C3_insertion_sort_stable (players : List Player) (stat : String)
    (descending : Bool) (attr : Player → Rat) (h : statLookup stat = some attr) :
    ∃ out, insertion_sort players stat descending = .ok out ∧
      ∀ v, out.filter (fun p => decide (attr p = v)) =
        players.filter (fun p => decide (attr p = v)) :=
  insertion_sort_stable players stat descending attr h

/-- Witness for C3 at a concrete input with tied keys. -/
theorem claim_C3_insertion_sort_stable_witness :
    statLookup "ppg" = some Player.points_per_game ∧
    (∃ out, insertion_sort
        [⟨"A", "T", 5, 0, 0, 0⟩, ⟨"B", "T", 7, 0, 0, 0⟩, ⟨"C", "T", 5, 1, 0, 0⟩] "ppg" true =
          .ok out ∧
      ∀ v, out.filter (fun p => decide (Player.points_per_game p = v)) =
        [⟨"A", "T", 5, 0, 0, 0⟩, ⟨"B", "T", 7, 0, 0, 0⟩,
          ⟨"C", "T", 5, 1, 0, 0⟩].filter (fun p => decide (Player.points_per_game p = v))) :=
  ⟨rfl, claim_C3_insertion_sort_stable
    [⟨"A", "T", 5, 0, 0, 0⟩, ⟨"B", "T", 7, 0, 0, 0⟩, ⟨"C", "T", 5, 1, 0, 0⟩] "ppg" true
    Player.points_per_game rfl⟩

/-- C4: each of the three sort strategies, called with a stat key outside the
four recognised ones, fails with the invalid-stat-key error whose message
reports the list of valid keys. (The embedding is pure, so the input list is
returned untouched inside the error path by construction.) -/
theorem claim_C4_invalid_stat_key (players : List Player) (stat : String)
    (descending : Bool) (h : statLookup stat = none) :
    numpy_sort players stat descending = .error (invalidStatMessage stat) ∧
    insertion_sort players stat descending = .error (invalidStatMessage stat) ∧
    heapsort players stat descending = .error (invalidStatMessage stat) ∧
    invalidStatMessage stat =
      "Invalid stat '" ++ stat ++ "'. Choose from: ppg, apg, bpg, spg" := by
  refine ⟨?_, ?_, ?_, ?_⟩
  · unfold numpy_sort
    rw [h]
  · unfold insertion_sort
    rw [h]
  · unfold heapsort
    rw [h]
  · unfold invalidStatMessage
    rw [show String.intercalate ", " (STAT_MAPPING.map Prod.fst) = "ppg, apg, bpg, spg"
      from rfl]
    rw [String.append_assoc]
    rw [show ("'. Choose from: " ++ "ppg, apg, bpg, spg" : String) =
      "'. Choose from: ppg, apg, bpg, spg" from rfl]

/-- Witness for C4 at a concrete unrecognised key. -/
theorem claim_C4_invalid_stat_key_witness :
    statLookup "xyz" = none ∧
    (numpy_sort [⟨"A", "T", 3, 0, 0, 0⟩] "xyz" true = .error (invalidStatMessage "xyz") ∧
     insertion_sort [⟨"A", "T", 3, 0, 0, 0⟩] "xyz" true = .error (invalidStatMessage "xyz") ∧
     heapsort [⟨"A", "T", 3, 0, 0, 0⟩] "xyz" true = .error (invalidStatMessage "xyz") ∧
     invalidStatMessage "xyz" = "Invalid stat 'xyz'. Choose from: ppg, apg, bpg, spg") :=
  ⟨rfl, claim_C4_invalid_stat_key [⟨"A", "T", 3, 0, 0, 0⟩] "xyz" true rfl⟩

/-- C5: for every list of items and every strict ordering predicate `above`,
after `heapify` the heap-order invariant holds: no non-root index compares
above its parent `(i - 1) / 2`. -/
theorem claim_C5_heapify_invariant (items : List Entry) (above : Rat → Rat → Bool)
    (hso : StrictOrdering above) :
    ∀ i, 0 < i → i < (heapify above items).length →
      above (entryKey (heapify above items) i)
        (entryKey (heapify above items) ((i - 1) / 2)) = false :=
  heapify_isHeap above hso items

/-- Witness for C5: a two-element heap under the descending predicate. -/
theorem claim_C5_heapify_invariant_witness :
    StrictOrdering (heapCompare true) ∧
    heapCompare true
      (entryKey (heapify (heapCompare true) [(3, default), (5, default)]) 1)
      (entryKey (heapify (heapCompare true) [(3, default), (5, default)]) 0) = false := by
  refine ⟨heapCompare_strict true, ?_⟩
  refine claim_C5_heapify_invariant [(3, default), (5, default)] (heapCompare true)
    (heapCompare_strict true) 1 (by omega) ?_
  have hlen := (heapify_perm (heapCompare true) (heapCompare_strict true)
    [(3, default), (5, default)]).length_eq
  rw [hlen]
  simp

/-- C6: `Player` construction fails with an invalid-value error whenever any
of the four stats is negative — in particular `points_per_game = -1` fails —
and the failure is atomic: no partially constructed player results, and
construction succeeds with exactly the given fields iff all four stats are
nonnegative. -/
theorem claim_C6_player_init (name team : String) (p s a b : Rat) :
    ((Player.init name team p s a b).isOk = true ↔ (0 ≤ p ∧ 0 ≤ s ∧ 0 ≤ a ∧ 0 ≤ b)) ∧
    (∀ pl, Player.init name team p s a b = .ok pl → pl = ⟨name, team, p, s, a, b⟩) ∧
    (∃ e, Player.init name team (-1) s a b = .error e) := by
  refine ⟨⟨?_, ?_⟩, ?_, ?_⟩
  · intro hok
    unfold Player.init at hok
    split_ifs at hok with h1 h2 h3 h4
    all_goals try simp [Except.isOk, Except.toBool] at hok
    exact ⟨not_lt.mp h1, not_lt.mp h2, not_lt.mp h3, not_lt.mp h4⟩
  · intro hall
    unfold Player.init
    rw [if_neg (not_lt.mpr hall.1), if_neg (not_lt.mpr hall.2.1),
      if_neg (not_lt.mpr hall.2.2.1), if_neg (not_lt.mpr hall.2.2.2)]
    rfl
  · intro pl hpl
    unfold Player.init at hpl
    split_ifs at hpl
    all_goals first
      | exact Except.noConfusion hpl
      | exact (Except.ok.inj hpl).symm
  · refine ⟨"points_per_game cannot be negative", ?_⟩
    unfold Player.init
    rw [if_pos (by norm_num : (-1 : Rat) < 0)]

/-- Witness for C6 at concrete stat values. -/
theorem claim_C6_player_init_witness :
    ((Player.init "X" "T" 1 2 3 4).isOk = true ↔
      ((0 : Rat) ≤ 1 ∧ (0 : Rat) ≤ 2 ∧ (0 : Rat) ≤ 3 ∧ (0 : Rat) ≤ 4)) ∧
    (∀ pl, Player.init "X" "T" 1 2 3 4 = .ok pl → pl = ⟨"X", "T", 1, 2, 3, 4⟩) ∧
    (∃ e, Player.init "X" "T" (-1) 2 3 4 = .error e) :=
  claim_C6_player_init "X" "T" 1 2 3 4

unseal percolate_up percolate_down extractLoop in
/-- C7 counterexample: three players with equal ppg form a list that is
already sorted by ppg descending, yet `heapsort` returns a different list —
so the claim fails as stated for `heapsort`. -/
theorem claim_C7_idempotence_counterexample :
    statLookup "ppg" = some Player.points_per_game ∧
    adjacentOrdered Player.points_per_game true
      [⟨"A", "T", 5, 0, 0, 0⟩, ⟨"B", "T", 5, 1, 0, 0⟩, ⟨"C", "T", 5, 2, 0, 0⟩] ∧
    heapsort [⟨"A", "T", 5, 0, 0, 0⟩, ⟨"B", "T", 5, 1, 0, 0⟩, ⟨"C", "T", 5, 2, 0, 0⟩]
      "ppg" true =
      .ok [⟨"A", "T", 5, 0, 0, 0⟩, ⟨"C", "T", 5, 2, 0, 0⟩, ⟨"B", "T", 5, 1, 0, 0⟩] ∧
    ([⟨"A", "T", 5, 0, 0, 0⟩, ⟨"C", "T", 5, 2, 0, 0⟩, ⟨"B", "T", 5, 1, 0, 0⟩] :
        List Player) ≠
      [⟨"A", "T", 5, 0, 0, 0⟩, ⟨"B", "T", 5, 1, 0, 0⟩, ⟨"C", "T", 5, 2, 0, 0⟩] := by
  refine ⟨rfl, ?_, rfl, by decide⟩
  unfold adjacentOrdered
  simp [List.chain'_cons]

/-- C7 (amended): sorting an already-sorted-by-`k` list in the same direction
returns an equal list for `insertion_sort` unconditionally; for `numpy_sort`
and `heapsort` the same holds provided the selected stat values are pairwise
distinct — with tied values heapsort's extraction, and numpy's unstable
default argsort, may reorder the tied players. -/
theorem claim_C7_idempotence_amended (players : List Player) (stat : String)
    (descending : Bool) (attr : Player → Rat) (h : statLookup stat = some attr)
    (hsorted : adjacentOrdered attr descending players) :
    insertion_sort players stat descending = .ok players ∧
    (List.Pairwise (fun x y => attr x ≠ attr y) players →
      numpy_sort players stat descending = .ok players ∧
      heapsort players stat descending = .ok players) :=
  ⟨insertion_sort_of_sorted players stat descending attr h hsorted,
   fun hdist =>
    ⟨numpy_sort_of_sorted_distinct players stat descending attr h hsorted hdist,
     heapsort_of_sorted_distinct players stat descending attr h hsorted hdist⟩⟩

/-- Witness for the amended C7 at a concrete sorted input with distinct keys. -/
theorem claim_C7_idempotence_amended_witness :
    statLookup "ppg" = some Player.points_per_game ∧
    adjacentOrdered Player.points_per_game true
      [⟨"C", "T", 30, 0, 0, 0⟩, ⟨"A", "T", 25, 0, 0, 0⟩, ⟨"B", "T", 20, 0, 0, 0⟩] ∧
    List.Pairwise (fun x y => Player.points_per_game x ≠ Player.points_per_game y)
      [⟨"C", "T", 30, 0, 0, 0⟩, ⟨"A", "T", 25, 0, 0, 0⟩, ⟨"B", "T", 20, 0, 0, 0⟩] ∧
    (insertion_sort [⟨"C", "T", 30, 0, 0, 0⟩, ⟨"A", "T", 25, 0, 0, 0⟩, ⟨"B", "T", 20, 0, 0, 0⟩]
        "ppg" true =
        .ok [⟨"C", "T", 30, 0, 0, 0⟩, ⟨"A", "T", 25, 0, 0, 0⟩, ⟨"B", "T", 20, 0, 0, 0⟩] ∧
     numpy_sort [⟨"C", "T", 30, 0, 0, 0⟩, ⟨"A", "T", 25, 0, 0, 0⟩, ⟨"B", "T", 20, 0, 0, 0⟩]
        "ppg" true =
        .ok [⟨"C", "T", 30, 0, 0, 0⟩, ⟨"A", "T", 25, 0, 0, 0⟩, ⟨"B", "T", 20, 0, 0, 0⟩] ∧
     heapsort [⟨"C", "T", 30, 0, 0, 0⟩, ⟨"A", "T", 25, 0, 0, 0⟩, ⟨"B", "T", 20, 0, 0, 0⟩]
        "ppg" true =
        .ok [⟨"C", "T", 30, 0, 0, 0⟩, ⟨"A", "T", 25, 0, 0, 0⟩, ⟨"B", "T", 20, 0, 0, 0⟩]) := by
  have hsorted : adjacentOrdered Player.points_per_game true
      [⟨"C", "T", 30, 0, 0, 0⟩, ⟨"A", "T", 25, 0, 0, 0⟩, ⟨"B", "T", 20, 0, 0, 0⟩] := by
    unfold adjacentOrdered
    simp [List.chain'_cons]
    norm_num
  have hdist : List.Pairwise
      (fun x y => Player.points_per_game x ≠ Player.points_per_game y)
      [⟨"C", "T", 30, 0, 0, 0⟩, ⟨"A", "T", 25, 0, 0, 0⟩, ⟨"B", "T", 20, 0, 0, 0⟩] := by
    simp [List.pairwise_cons]
  have hmain := claim_C7_idempotence_amended
    [⟨"C", "T", 30, 0, 0, 0⟩, ⟨"A", "T", 25, 0, 0, 0⟩, ⟨"B", "T", 20, 0, 0, 0⟩]
    "ppg" true Player.points_per_game rfl hsorted
  exact ⟨rfl, hsorted, hdist, hmain.1, (hmain.2 hdist).1, (hmain.2 hdist).2⟩

/-- C8: under the precondition `0 ≤ index < size ≤ len(heap)`,
`percolate_down` implements exactly the spec's loop: repeatedly swap toward
the in-range child that is above the current best — current element first,
then the candidate best among the children with the left child preferred on
ties — stopping at a leaf or when no child is above the current element
(`spec_percolate_down` is written from the spec's words). -/
theorem claim_C8_percolate_down_refines (above : Rat → Rat → Bool)
    (hso : StrictOrdering above) (heap : List Entry) (idx size : Nat)
    (hpre : idx < size ∧ size ≤ heap.length) :
    spec_percolate_down above heap idx size = percolate_down above heap idx size :=
  spec_percolate_down_eq above hso size heap idx

/-- Witness for C8 at a concrete heap. -/
theorem claim_C8_percolate_down_refines_witness :
    StrictOrdering (heapCompare true) ∧
    (0 < 3 ∧ 3 ≤ ([(1, default), (3, default), (2, default)] : List Entry).length) ∧
    spec_percolate_down (heapCompare true) [(1, default), (3, default), (2, default)] 0 3 =
      percolate_down (heapCompare true) [(1, default), (3, default), (2, default)] 0 3 :=
  ⟨heapCompare_strict true, ⟨by omega, by simp⟩,
   claim_C8_percolate_down_refines (heapCompare true) (heapCompare_strict true)
     [(1, default), (3, default), (2, default)] 0 3 ⟨by omega, by simp⟩⟩

/-- C9: `time_algorithm` with repeat count `R ≥ 1` runs `R` trials and
returns a pair whose first component is the arithmetic mean of the `R`
per-trial durations; the second component is exactly `0` when `R = 1`, and
when `R > 1` it is the sample standard deviation of the durations computed
with the `n - 1` denominator. -/
theorem claim_C9_time_algorithm (clock : Nat → ℝ) (repeats : Nat) (h : 1 ≤ repeats) :
    (trialTimings clock repeats).length = repeats ∧
    (time_algorithm clock repeats).1 = (trialTimings clock repeats).sum / repeats ∧
    (repeats = 1 → (time_algorithm clock repeats).2 = 0) ∧
    (1 < repeats → (time_algorithm clock repeats).2 =
      Real.sqrt (((trialTimings clock repeats).map
        (fun x => (x - (trialTimings clock repeats).sum / repeats) ^ 2)).sum /
        (repeats - 1))) := by
  refine ⟨trialTimings_length clock repeats, ?_, ?_, ?_⟩
  · show statistics_mean (trialTimings clock repeats) = _
    unfold statistics_mean
    rw [trialTimings_length]
  · intro h1
    show (if 1 < (trialTimings clock repeats).length then
      statistics_stdev (trialTimings clock repeats) else 0) = 0
    rw [trialTimings_length, h1]
    rw [if_neg (by omega)]
  · intro h1
    show (if 1 < (trialTimings clock repeats).length then
      statistics_stdev (trialTimings clock repeats) else 0) = _
    rw [trialTimings_length, if_pos h1]
    unfold statistics_stdev statistics_mean
    rw [trialTimings_length]

/-- Witness for C9: a single trial under an identity clock. -/
theorem claim_C9_time_algorithm_witness :
    (1 : Nat) ≤ 1 ∧
    (trialTimings (fun n => (n : ℝ)) 1).length = 1 ∧
    (time_algorithm (fun n => (n : ℝ)) 1).1 =
      (trialTimings (fun n => (n : ℝ)) 1).sum / ((1 : Nat) : ℝ) ∧
    (time_algorithm (fun n => (n : ℝ)) 1).2 = 0 := by
  have h := claim_C9_time_algorithm (fun n => (n : ℝ)) 1 le_rfl
  exact ⟨le_rfl, h.1, h.2.1, h.2.2.1 rfl⟩

/-- C10: `percolate_down` terminates for every heap, comparison predicate and
arguments with `size ≤ len(heap)`: each pass of the unbounded loop either
exits or moves to an in-range child index strictly greater than the current
one, so `size` units of fuel are enough for the fuel-bounded copy of the loop
to compute `percolate_down` exactly. -/
theorem claim_C10_percolate_down_terminates (above : Rat → Rat → Bool)
    (heap : List Entry) (idx size : Nat) (h : size ≤ heap.length) :
    (bestIndex above heap idx size ≠ idx →
      idx < bestIndex above heap idx size ∧ bestIndex above heap idx size < size) ∧
    pdFuel above size heap idx size = percolate_down above heap idx size :=
  ⟨bestIndex_lt above heap idx size, pdFuel_eq above size size heap idx (by omega)⟩

/-- Witness for C10 at a concrete heap. -/
theorem claim_C10_percolate_down_terminates_witness :
    3 ≤ ([(1, default), (3, default), (2, default)] : List Entry).length ∧
    ((bestIndex (heapCompare true) [(1, default), (3, default), (2, default)] 0 3 ≠ 0 →
       0 < bestIndex (heapCompare true) [(1, default), (3, default), (2, default)] 0 3 ∧
       bestIndex (heapCompare true) [(1, default), (3, default), (2, default)] 0 3 < 3) ∧
     pdFuel (heapCompare true) 3 [(1, default), (3, default), (2, default)] 0 3 =
       percolate_down (heapCompare true) [(1, default), (3, default), (2, default)] 0 3) :=
  ⟨by simp, claim_C10_percolate_down_terminates (heapCompare true)
    [(1, default), (3, default), (2, default)] 0 3 (by simp)⟩
